import Mathlib

/-!
Verification of the crop-rotation problem encoder and validator.

This file shallowly embeds the core of the `crop-rotation` repository:

* `caselabeldqm.py` — `CaseLabelDQM`, a label-indexed wrapper over a discrete
  quadratic model (variables, case lists, linear and quadratic bias tables);
* `crop_rotation.py` — `CropRotation.__init__` (derived tables), the cyclic
  `rollover_period` loop, the combination generators
  `crop_r_combinations` / `plot_crop_r_combinations`, the four passes of
  `build_dqm`, and `CropRotation.validate`.

Python dicts are modelled as association lists (insertion order preserved,
lookup finds the first matching key).  Python integers are `Nat`/`Int`
(unbounded, as in Python).  Fallible dict accesses are modelled in the
`Option` monad: `none` corresponds to a raised `KeyError`.  Bias values in
the program are Python floats holding small integers (`-grow_time` and
`gamma`); all arithmetic done on them is exact, so they are embedded as
`Int`.  The Python variable label `f'{plot},{period}'` is in bijection with
the pair `(plot, period)` (plots are integers in problem files, so the comma
separates the two numbers unambiguously); variables are embedded as pairs.
-/

namespace CropRot

/-! ### Association-list dictionary primitives -/

/-- Python dict lookup on an association list: first entry with the key. -/
def alookup {κ β : Type} [DecidableEq κ] : List (κ × β) → κ → Option β
  | [], _ => none
  | (k, v) :: l, k' => if k' = k then some v else alookup l k'

@[simp] theorem alookup_nil {κ β : Type} [DecidableEq κ] (k : κ) :
    alookup ([] : List (κ × β)) k = none := rfl

@[simp] theorem alookup_cons {κ β : Type} [DecidableEq κ] (k k' : κ) (v : β)
    (l : List (κ × β)) :
    alookup ((k, v) :: l) k' = if k' = k then some v else alookup l k' := rfl

theorem alookup_eq_none_of_not_mem {κ β : Type} [DecidableEq κ]
    {l : List (κ × β)} {k : κ} (h : k ∉ l.map Prod.fst) : alookup l k = none := by
  induction l with
  | nil => rfl
  | cons e l ih =>
    obtain ⟨a, b⟩ := e
    simp only [List.map_cons, List.mem_cons] at h
    push_neg at h
    simp [alookup, h.1, ih h.2]

theorem alookup_isSome_of_mem {κ β : Type} [DecidableEq κ]
    {l : List (κ × β)} {k : κ} (h : k ∈ l.map Prod.fst) :
    ∃ v, alookup l k = some v := by
  induction l with
  | nil => simp at h
  | cons e l ih =>
    obtain ⟨a, b⟩ := e
    by_cases hk : k = a
    · exact ⟨b, by simp [alookup, hk]⟩
    · simp only [List.map_cons, List.mem_cons] at h
      rcases h with h | h
      · exact absurd h hk
      · obtain ⟨v, hv⟩ := ih h
        exact ⟨v, by simp [alookup, hk, hv]⟩

theorem alookup_of_mem_of_nodup {κ β : Type} [DecidableEq κ]
    {l : List (κ × β)} {k : κ} {v : β}
    (hnd : (l.map Prod.fst).Nodup) (hmem : (k, v) ∈ l) : alookup l k = some v := by
  induction l with
  | nil => simp at hmem
  | cons e l ih =>
    obtain ⟨a, b⟩ := e
    simp only [List.map_cons, List.nodup_cons] at hnd
    rcases List.mem_cons.mp hmem with h | h
    · simp only [Prod.mk.injEq] at h
      obtain ⟨rfl, rfl⟩ := h
      simp [alookup]
    · have hka : k ≠ a := by
        rintro rfl
        exact hnd.1 (List.mem_map_of_mem Prod.fst h)
      simp [alookup, hka, ih hnd.2 h]

theorem mem_of_alookup_eq_some {κ β : Type} [DecidableEq κ]
    {l : List (κ × β)} {k : κ} {v : β} (h : alookup l k = some v) : (k, v) ∈ l := by
  induction l with
  | nil => simp [alookup] at h
  | cons e l ih =>
    obtain ⟨a, b⟩ := e
    by_cases hk : k = a
    · subst hk
      simp [alookup] at h
      simp [h]
    · simp [alookup, hk] at h
      exact List.mem_cons_of_mem _ (ih h)

theorem alookup_map_const {κ β : Type} [DecidableEq κ]
    {l : List κ} {k : κ} (h : k ∈ l) (c : β) :
    alookup (l.map (fun x => (x, c))) k = some c := by
  induction l with
  | nil => simp at h
  | cons a l ih =>
    by_cases hk : k = a
    · simp [alookup, hk]
    · rcases List.mem_cons.mp h with h' | h'
      · exact absurd h' hk
      · simp [alookup, hk, ih h']

/-- Python `list(mydict)[n]`-style positional access; also models lookup in a
dict built from `enumerate` (`{k: case for k, case in enumerate(cases)}`). -/
def nthD {α : Type} : List α → Nat → Option α
  | [], _ => none
  | a :: _, 0 => some a
  | _ :: l, n + 1 => nthD l n

@[simp] theorem nthD_nil {α : Type} (n : Nat) : nthD ([] : List α) n = none := by
  cases n <;> rfl

@[simp] theorem nthD_cons_zero {α : Type} (a : α) (l : List α) :
    nthD (a :: l) 0 = some a := rfl

@[simp] theorem nthD_cons_succ {α : Type} (a : α) (l : List α) (n : Nat) :
    nthD (a :: l) (n + 1) = nthD l n := rfl

/-- Index of the first occurrence of an element, mirroring the dict
`{case: k for k, case in enumerate(cases)}` read at `case` (the dict keeps
the *last* write for duplicate cases, but duplicate cases are rejected by
`add_variable`, and on distinct cases first = only occurrence). -/
def idxOfD {α : Type} [DecidableEq α] (a : α) : List α → Nat
  | [] => 0
  | b :: l => if a = b then 0 else idxOfD a l + 1

theorem nthD_idxOfD {α : Type} [DecidableEq α] {a : α} {l : List α}
    (h : a ∈ l) : nthD l (idxOfD a l) = some a := by
  induction l with
  | nil => simp at h
  | cons b l ih =>
    by_cases hab : a = b
    · simp [idxOfD, hab]
    · rcases List.mem_cons.mp h with h' | h'
      · exact absurd h' hab
      · simp [idxOfD, hab, ih h']

theorem nthD_mem {α : Type} :
    ∀ {l : List α} {k : Nat} {a : α}, nthD l k = some a → a ∈ l := by
  intro l
  induction l with
  | nil => intro k a h; simp at h
  | cons b l ih =>
    intro k a h
    match k with
    | 0 => simp at h; simp [h]
    | k + 1 => exact List.mem_cons_of_mem _ (ih (by simpa using h))

theorem idxOfD_nthD {α : Type} [DecidableEq α] :
    ∀ {l : List α}, l.Nodup → ∀ {k : Nat} {a : α}, nthD l k = some a → idxOfD a l = k := by
  intro l
  induction l with
  | nil => intro _ k a h; simp at h
  | cons b l ih =>
    intro hnd k a h
    obtain ⟨hb, hnd'⟩ := List.nodup_cons.mp hnd
    match k with
    | 0 =>
      simp at h
      simp [idxOfD, h]
    | k + 1 =>
      simp at h
      have hmem : a ∈ l := nthD_mem h
      have hab : a ≠ b := by
        rintro rfl
        exact hb hmem
      simp [idxOfD, hab, ih hnd' h]

/-- `itertools.combinations(l, 2)`: unordered pairs of positions, earlier
position first, in the generation order of `itertools`. -/
def pairCombos {α : Type} : List α → List (α × α)
  | [] => []
  | a :: l => (l.map (fun b => (a, b))) ++ pairCombos l

theorem mem_pairCombos_of_mem {α : Type} {l : List α} {a b : α}
    (ha : a ∈ l) (hb : b ∈ l) (hab : a ≠ b) :
    (a, b) ∈ pairCombos l ∨ (b, a) ∈ pairCombos l := by
  induction l with
  | nil => simp at ha
  | cons c l ih =>
    rcases List.mem_cons.mp ha with rfl | ha'
    · rcases List.mem_cons.mp hb with rfl | hb'
      · exact absurd rfl hab
      · exact Or.inl (by simp [pairCombos]; exact Or.inl hb')
    · rcases List.mem_cons.mp hb with rfl | hb'
      · exact Or.inr (by simp [pairCombos]; exact Or.inl ha')
      · rcases ih ha' hb' with h | h
        · exact Or.inl (by simp [pairCombos]; exact Or.inr h)
        · exact Or.inr (by simp [pairCombos]; exact Or.inr h)

theorem mem_of_mem_pairCombos {α : Type} {l : List α} {a b : α}
    (h : (a, b) ∈ pairCombos l) : a ∈ l ∧ b ∈ l := by
  induction l with
  | nil => simp [pairCombos] at h
  | cons c l ih =>
    simp only [pairCombos, List.mem_append, List.mem_map] at h
    rcases h with ⟨x, hx, hxe⟩ | h
    · simp only [Prod.mk.injEq] at hxe
      obtain ⟨rfl, rfl⟩ := hxe
      exact ⟨List.mem_cons_self _ _, List.mem_cons_of_mem _ hx⟩
    · obtain ⟨h1, h2⟩ := ih h
      exact ⟨List.mem_cons_of_mem _ h1, List.mem_cons_of_mem _ h2⟩

/-! ### `rollover_period`

`CropRotation.rollover_period` is a pair of `while` loops:

```python
while period > self.time_units:
    period -= self.time_units
while period < 1:
    period += self.time_units
return period
```

Each loop is embedded as a structurally recursive function with enough fuel;
the fuel bounds are validated by the specification theorems below (for
`time_units ≥ 1` the loops always terminate within the supplied fuel, and the
result is the unique representative in `[1, time_units]`). -/

theorem emod_add_self_right (a n : Int) : (a + n) % n = a % n := by
  have h := Int.add_mul_emod_self_left (a := a) (b := n) (c := 1)
  simp only [mul_one] at h
  exact h

/-- First loop: `while period > T: period -= T`, running at most `fuel` steps. -/
def rollDownAux (T : Nat) : Nat → Int → Int
  | 0, p => p
  | fuel + 1, p => if (T : Int) < p then rollDownAux T fuel (p - T) else p

/-- Second loop: `while period < 1: period += T`, running at most `fuel` steps. -/
def rollUpAux (T : Nat) : Nat → Int → Int
  | 0, p => p
  | fuel + 1, p => if p < 1 then rollUpAux T fuel (p + T) else p

/-- `CropRotation.rollover_period` (the `self.time_units` field is passed
explicitly). -/
def rollover_period (T : Nat) (p : Int) : Int :=
  rollUpAux T (1 - rollDownAux T p.toNat p).toNat (rollDownAux T p.toNat p)

theorem rollDownAux_spec (T : Nat) (hT : 1 ≤ T) :
    ∀ (fuel : Nat) (p : Int), p ≤ (T : Int) + fuel →
      rollDownAux T fuel p ≤ T ∧ rollDownAux T fuel p % T = p % T ∧
        (1 ≤ p → 1 ≤ rollDownAux T fuel p) := by
  intro fuel
  induction fuel with
  | zero =>
    intro p hp
    refine ⟨by simpa [rollDownAux] using hp, rfl, fun h => by simpa [rollDownAux] using h⟩
  | succ fuel ih =>
    intro p hp
    by_cases h : (T : Int) < p
    · have hrec := ih (p - T) (by push_cast at hp ⊢; omega)
      have hmod : (p - (T : Int)) % T = p % T := by
        conv_rhs => rw [show (p : Int) = (p - T) + T by ring]
        rw [emod_add_self_right]
      constructor
      · simpa [rollDownAux, h] using hrec.1
      constructor
      · rw [show rollDownAux T (fuel + 1) p = rollDownAux T fuel (p - T) by
          simp [rollDownAux, h]]
        rw [hrec.2.1, hmod]
      · intro _
        have : (1 : Int) ≤ p - T := by omega
        simpa [rollDownAux, h] using hrec.2.2 this
    · refine ⟨by simpa [rollDownAux, h] using (by omega : p ≤ (T : Int)), by simp [rollDownAux, h],
        fun h1 => by simpa [rollDownAux, h] using h1⟩

theorem rollUpAux_spec (T : Nat) (hT : 1 ≤ T) :
    ∀ (fuel : Nat) (q : Int), 1 - q ≤ (fuel : Int) → q ≤ T →
      1 ≤ rollUpAux T fuel q ∧ rollUpAux T fuel q ≤ T ∧
        rollUpAux T fuel q % T = q % T := by
  intro fuel
  induction fuel with
  | zero =>
    intro q hfuel hq
    have h1 : 1 ≤ q := by simpa using (by omega : 1 ≤ q)
    exact ⟨by simpa [rollUpAux] using h1, by simpa [rollUpAux] using hq, rfl⟩
  | succ fuel ih =>
    intro q hfuel hq
    by_cases h : q < 1
    · have hrec := ih (q + T) (by push_cast at hfuel ⊢; omega) (by omega)
      have hmod : (q + (T : Int)) % T = q % T := emod_add_self_right q T
      refine ⟨by simpa [rollUpAux, h] using hrec.1, by simpa [rollUpAux, h] using hrec.2.1, ?_⟩
      rw [show rollUpAux T (fuel + 1) q = rollUpAux T fuel (q + T) by simp [rollUpAux, h]]
      rw [hrec.2.2, hmod]
    · exact ⟨by simpa [rollUpAux, h] using (by omega : (1 : Int) ≤ q),
        by simpa [rollUpAux, h] using hq, by simp [rollUpAux, h]⟩

theorem rollover_period_spec (T : Nat) (hT : 1 ≤ T) (p : Int) :
    1 ≤ rollover_period T p ∧ rollover_period T p ≤ T ∧
      rollover_period T p % T = p % T := by
  have hfuel : p ≤ (T : Int) + (p.toNat : Int) := by
    have := Int.self_le_toNat p
    omega
  have hdown := rollDownAux_spec T hT p.toNat p hfuel
  set q := rollDownAux T p.toNat p with hq
  have hupfuel : 1 - q ≤ ((1 - q).toNat : Int) := Int.self_le_toNat _
  have hup := rollUpAux_spec T hT (1 - q).toNat q hupfuel hdown.1
  refine ⟨hup.1, hup.2.1, ?_⟩
  rw [rollover_period, ← hq, hup.2.2, hdown.2.1]

/-- Two values in `[1, T]` that are congruent mod `T` are equal. -/
theorem interval_mod_unique {T : Nat} (hT : 1 ≤ T) {v w : Int}
    (hv1 : 1 ≤ v) (hvT : v ≤ T) (hw1 : 1 ≤ w) (hwT : w ≤ T)
    (hmod : v % T = w % T) : v = w := by
  have hTpos : (0 : Int) < T := by exact_mod_cast hT
  rcases eq_or_lt_of_le hvT with hv | hv
  · rcases eq_or_lt_of_le hwT with hw | hw
    · rw [hv, hw]
    · rw [hv, Int.emod_self, Int.emod_eq_of_lt (by omega) hw] at hmod
      omega
  · rw [Int.emod_eq_of_lt (by omega) hv] at hmod
    rcases eq_or_lt_of_le hwT with hw | hw
    · rw [hw, Int.emod_self] at hmod
      omega
    · rw [Int.emod_eq_of_lt (by omega) hw] at hmod
      exact hmod

/-- Uniqueness form of the rollover specification: `rollover_period T p` is
the unique value of `[1, T]` congruent to `p` mod `T`. -/
theorem rollover_period_eq_of (T : Nat) (hT : 1 ≤ T) (p v : Int)
    (hv1 : 1 ≤ v) (hvT : v ≤ T) (hmod : v % T = p % T) :
    rollover_period T p = v := by
  have hs := rollover_period_spec T hT p
  exact interval_mod_unique hT hs.1 hs.2.1 hv1 hvT (hs.2.2.trans hmod.symm)

theorem rollover_period_closed_form (T : Nat) (hT : 1 ≤ T) (p : Int) :
    rollover_period T p = 1 + (p - 1) % T := by
  have hTpos : (0 : Int) < T := by exact_mod_cast hT
  apply rollover_period_eq_of T hT p
  · have := Int.emod_nonneg (p - 1) (by omega : (T : Int) ≠ 0)
    omega
  · have := Int.emod_lt_of_pos (p - 1) hTpos
    omega
  · conv_rhs => rw [show p = 1 + (p - 1) by ring]
    rw [Int.add_emod 1 ((p-1) % T), Int.add_emod 1 (p-1), Int.emod_emod_of_dvd _ dvd_rfl]

/-- `rollover_period` specialised to the natural numbers `1..T` it lands in
(used to build variable labels, whose period component is a `Nat`). -/
def rolloverN (T : Nat) (p : Int) : Nat := (rollover_period T p).toNat

theorem rolloverN_spec (T : Nat) (hT : 1 ≤ T) (p : Int) :
    1 ≤ rolloverN T p ∧ rolloverN T p ≤ T ∧
      ((rolloverN T p : Int)) % T = p % T := by
  have hs := rollover_period_spec T hT p
  refine ⟨?_, ?_, ?_⟩
  · unfold rolloverN; omega
  · unfold rolloverN; omega
  · unfold rolloverN
    rw [Int.toNat_of_nonneg (by omega)]
    exact hs.2.2

theorem rolloverN_eq_of (T : Nat) (hT : 1 ≤ T) (p : Int) (v : Nat)
    (hv1 : 1 ≤ v) (hvT : v ≤ T) (hmod : (v : Int) % T = p % T) :
    rolloverN T p = v := by
  have h := rollover_period_eq_of T hT p v (by exact_mod_cast hv1) (by exact_mod_cast hvT) hmod
  rw [rolloverN, h, Int.toNat_ofNat]

theorem rolloverN_self (T : Nat) (hT : 1 ≤ T) (v : Nat) (hv1 : 1 ≤ v) (hvT : v ≤ T) :
    rolloverN T v = v :=
  rolloverN_eq_of T hT v v hv1 hvT rfl

/-- Cancellation used to match the encoder (`period - r`) against the
validator (`period + r`): rolling `r` back from `rollover(p₁ + r)` returns
`p₁`. -/
theorem rolloverN_sub_cancel (T : Nat) (hT : 1 ≤ T) (p1 : Nat) (r : Nat)
    (h1 : 1 ≤ p1) (h2 : p1 ≤ T) :
    rolloverN T ((rolloverN T ((p1 : Int) + r) : Int) - r) = p1 := by
  have hs := rolloverN_spec T hT ((p1 : Int) + r)
  apply rolloverN_eq_of T hT _ _ h1 h2
  rw [Int.sub_emod, hs.2.2, ← Int.sub_emod]
  simp

/-- Injectivity of the rollover on offsets smaller than the cycle length
(at the same reference period). -/
theorem rolloverN_offset_inj (T : Nat) (hT : 1 ≤ T) (p : Int) (r1 r2 : Nat)
    (hr1 : r1 < T) (hr2 : r2 < T)
    (h : rolloverN T (p - r1) = rolloverN T (p - r2)) : r1 = r2 := by
  have hs1 := rolloverN_spec T hT (p - r1)
  have hs2 := rolloverN_spec T hT (p - r2)
  have hmod : (p - (r1 : Int)) % T = (p - (r2 : Int)) % T := by
    rw [← hs1.2.2, ← hs2.2.2, h]
  have hdvd : (T : Int) ∣ ((r2 : Int) - r1) := by
    have h0 : ((p - (r1 : Int)) - (p - (r2 : Int))) % T = 0 :=
      Int.emod_emod_of_dvd _ dvd_rfl ▸ (Int.emod_eq_emod_iff_emod_sub_eq_zero.mp hmod)
    have : ((p - (r1 : Int)) - (p - (r2 : Int))) = (r2 : Int) - r1 := by ring
    rw [this] at h0
    exact Int.dvd_of_emod_eq_zero h0
  obtain ⟨k, hk⟩ := hdvd
  have hTpos : (0 : Int) < T := by exact_mod_cast hT
  rcases lt_trichotomy k 0 with hk0 | hk0 | hk0
  · have hk1 : k ≤ -1 := by omega
    have : (T : Int) * k ≤ (T : Int) * (-1) :=
      mul_le_mul_of_nonneg_left hk1 (le_of_lt hTpos)
    omega
  · subst hk0
    simp only [mul_zero] at hk
    omega
  · have hk1 : 1 ≤ k := by omega
    have : (T : Int) * 1 ≤ (T : Int) * k :=
      mul_le_mul_of_nonneg_left hk1 (le_of_lt hTpos)
    omega

/-! ### The problem description

`load_problem_file` delivers `time_units`, `plot_adjacency` and `crops`
(checked by `validate.validate_problem`).  Plot identifiers are integers in
the problem files; crop identifiers are strings. -/

/-- One crop definition: the value of `crops[crop]` after validation. -/
structure CropDef where
  family : String
  planting : Nat × Nat
  grow_time : Nat
deriving DecidableEq, Repr

/-- A problem description (the three arguments of `CropRotation.__init__`;
dicts are insertion-ordered association lists). -/
structure Problem where
  time_units : Nat
  plot_adjacency : List (Nat × List Nat)
  crops : List (String × CropDef)
deriving DecidableEq, Repr

/-- The plot identifiers (keys of `plot_adjacency`, in order). -/
def plotKeys (P : Problem) : List Nat := P.plot_adjacency.map Prod.fst

/-- The crop identifiers (keys of `crops`, in order). -/
def cropKeys (P : Problem) : List String := P.crops.map Prod.fst

/-- The conditions established by `validate.validate_problem` (plus the two
structural facts that Python dict keys are unique), together with
`crops ≠ []`, without which `CropRotation.__init__` itself faults on
`max(self.grow_time.values())`.  The planting-window bounds lie in
`[1, time_units]` and every `grow_time` is positive; neighbors are plots and
no plot is adjacent to itself. -/
def ValidProblem (P : Problem) : Prop :=
  1 ≤ P.time_units ∧
  (plotKeys P).Nodup ∧
  (∀ e ∈ P.plot_adjacency, ∀ v ∈ e.2, v ∈ plotKeys P ∧ v ≠ e.1) ∧
  (cropKeys P).Nodup ∧
  (∀ e ∈ P.crops, 1 ≤ e.2.planting.1 ∧ e.2.planting.1 ≤ P.time_units ∧
      1 ≤ e.2.planting.2 ∧ e.2.planting.2 ≤ P.time_units ∧ 1 ≤ e.2.grow_time) ∧
  P.crops ≠ []

instance (P : Problem) : Decidable (ValidProblem P) := by
  unfold ValidProblem
  infer_instance

/-- `range(1, self.time_units + 1)`: the periods `1..T` in loop order. -/
def periodsList (P : Problem) : List Nat := (List.range P.time_units).map (· + 1)

theorem mem_periodsList {P : Problem} {p : Nat} :
    p ∈ periodsList P ↔ 1 ≤ p ∧ p ≤ P.time_units := by
  simp only [periodsList, List.mem_map, List.mem_range]
  constructor
  · rintro ⟨k, hk, rfl⟩
    omega
  · rintro ⟨h1, h2⟩
    exact ⟨p - 1, by omega, by omega⟩

/-- `self.period_crops[period]`: the crops whose planting window contains
`period`, in crop-dict order (built in `__init__` by appending each crop to
every period of its window). -/
def periodCrops (P : Problem) (period : Nat) : List String :=
  (P.crops.filter
    (fun e => e.2.planting.1 ≤ period ∧ period ≤ e.2.planting.2)).map Prod.fst

theorem mem_periodCrops {P : Problem} {period : Nat} {c : String} :
    c ∈ periodCrops P period ↔
      ∃ d, (c, d) ∈ P.crops ∧ d.planting.1 ≤ period ∧ period ≤ d.planting.2 := by
  simp only [periodCrops, List.mem_map, List.mem_filter, decide_eq_true_eq]
  constructor
  · rintro ⟨⟨c', d⟩, ⟨hmem, h1, h2⟩, rfl⟩
    exact ⟨d, hmem, h1, h2⟩
  · rintro ⟨d, hmem, h1, h2⟩
    exact ⟨(c, d), ⟨hmem, h1, h2⟩, rfl⟩

theorem periodCrops_subset_cropKeys {P : Problem} {period : Nat} {c : String} :
    c ∈ periodCrops P period → c ∈ cropKeys P := by
  intro h
  obtain ⟨d, hmem, -, -⟩ := mem_periodCrops.mp h
  exact List.mem_map_of_mem Prod.fst hmem

theorem periodCrops_nodup {P : Problem} (h : (cropKeys P).Nodup) (period : Nat) :
    (periodCrops P period).Nodup := by
  have hsub : (periodCrops P period).Sublist (cropKeys P) :=
    (List.filter_sublist _).map Prod.fst
  exact hsub.nodup h

/-- `self.grow_time` read at a crop identifier (`self.grow_time[crop]`);
callers below only use it at keys of `crops`, where the lookup succeeds. -/
def growTimeOf (P : Problem) (c : String) : Option Nat :=
  (alookup P.crops c).map CropDef.grow_time

/-- `self.crop_families` read at a family (a `defaultdict(list)`: missing
families give `[]`).  Members appear in crop-dict order. -/
def familyMembers (P : Problem) (f : String) : List String :=
  (P.crops.filter (fun e => e.2.family = f)).map Prod.fst

/-- The member crops of a family together with their definitions (used to
build the per-family offset sequences of `build_dqm`). -/
def familyMembersD (P : Problem) (f : String) : List (String × CropDef) :=
  P.crops.filter (fun e => e.2.family = f)

theorem mem_familyMembersD {P : Problem} {f : String} {e : String × CropDef} :
    e ∈ familyMembersD P f ↔ e ∈ P.crops ∧ e.2.family = f := by
  simp [familyMembersD, List.mem_filter]

theorem familyMembers_eq_map (P : Problem) (f : String) :
    familyMembers P f = (familyMembersD P f).map Prod.fst := rfl

/-- First-occurrence deduplication: the key order of a `defaultdict` built by
appending (`self.crop_families.values()` iterates families in the order their
first member crop appears). -/
def firstDedupAux : List String → List String → List String
  | [], _ => []
  | a :: l, seen =>
    if a ∈ seen then firstDedupAux l seen else a :: firstDedupAux l (a :: seen)

def firstDedup (l : List String) : List String := firstDedupAux l []

theorem mem_firstDedupAux :
    ∀ (l seen : List String) (a : String),
      a ∈ firstDedupAux l seen ↔ a ∈ l ∧ a ∉ seen := by
  intro l
  induction l with
  | nil => intro seen a; simp [firstDedupAux]
  | cons b l ih =>
    intro seen a
    by_cases hb : b ∈ seen
    · rw [show firstDedupAux (b :: l) seen = firstDedupAux l seen by
        simp [firstDedupAux, hb]]
      rw [ih]
      constructor
      · rintro ⟨h1, h2⟩
        exact ⟨List.mem_cons_of_mem _ h1, h2⟩
      · rintro ⟨h1, h2⟩
        rcases List.mem_cons.mp h1 with rfl | h1'
        · exact absurd hb h2
        · exact ⟨h1', h2⟩
    · rw [show firstDedupAux (b :: l) seen = b :: firstDedupAux l (b :: seen) by
        simp [firstDedupAux, hb]]
      constructor
      · intro h
        rcases List.mem_cons.mp h with rfl | h'
        · exact ⟨List.mem_cons_self _ _, hb⟩
        · obtain ⟨h1, h2⟩ := (ih (b :: seen) a).mp h'
          refine ⟨List.mem_cons_of_mem _ h1, fun hc => h2 (List.mem_cons_of_mem _ hc)⟩
      · rintro ⟨h1, h2⟩
        rcases List.mem_cons.mp h1 with rfl | h1'
        · exact List.mem_cons_self _ _
        · by_cases hab : a = b
          · exact hab ▸ List.mem_cons_self _ _
          · exact List.mem_cons_of_mem _ ((ih (b :: seen) a).mpr
              ⟨h1', fun hc => by
                rcases List.mem_cons.mp hc with h | h
                · exact hab h
                · exact h2 h⟩)

theorem mem_firstDedup {l : List String} {a : String} :
    a ∈ firstDedup l ↔ a ∈ l := by
  rw [firstDedup, mem_firstDedupAux]
  simp

/-- The family names in `self.crop_families.values()` iteration order. -/
def familiesList (P : Problem) : List String :=
  firstDedup (P.crops.map (fun e => e.2.family))

theorem mem_familiesList {P : Problem} {e : String × CropDef} (h : e ∈ P.crops) :
    e.2.family ∈ familiesList P :=
  mem_firstDedup.mpr (List.mem_map_of_mem _ h)

/-- `self._crop_r`: every crop paired with each offset `0 ≤ r < grow_time`,
in crop-dict order. -/
def cropRList (P : Problem) : List (String × Nat) :=
  P.crops.flatMap (fun e => (List.range e.2.grow_time).map (fun r => (e.1, r)))

theorem mem_cropRList {P : Problem} {c : String} {r : Nat} :
    (c, r) ∈ cropRList P ↔ ∃ d, (c, d) ∈ P.crops ∧ r < d.grow_time := by
  constructor
  · intro h
    obtain ⟨e, hmem, he⟩ := List.mem_flatMap.mp h
    obtain ⟨k, hk, heq⟩ := List.mem_map.mp he
    simp only [Prod.mk.injEq] at heq
    obtain ⟨hc, hr⟩ := heq
    subst hc; subst hr
    exact ⟨e.2, by simpa using hmem, by simpa using hk⟩
  · rintro ⟨d, hmem, hr⟩
    exact List.mem_flatMap.mpr ⟨(c, d), hmem,
      List.mem_map.mpr ⟨r, List.mem_range.mpr hr, rfl⟩⟩

/-- The per-family sequence of constraint set 2: offsets `0 ≤ r ≤ grow_time`
(inclusive), restricted to one family. -/
def familyCropR (P : Problem) (f : String) : List (String × Nat) :=
  (familyMembersD P f).flatMap
    (fun e => (List.range (e.2.grow_time + 1)).map (fun r => (e.1, r)))

theorem mem_familyCropR {P : Problem} {f : String} {c : String} {r : Nat} :
    (c, r) ∈ familyCropR P f ↔
      ∃ d, (c, d) ∈ P.crops ∧ d.family = f ∧ r ≤ d.grow_time := by
  constructor
  · intro h
    obtain ⟨e, hmem, he⟩ := List.mem_flatMap.mp h
    obtain ⟨k, hk, heq⟩ := List.mem_map.mp he
    simp only [Prod.mk.injEq] at heq
    obtain ⟨hc, hr⟩ := heq
    subst hc; subst hr
    obtain ⟨hmem2, hf⟩ := mem_familyMembersD.mp hmem
    refine ⟨e.2, by simpa using hmem2, hf, ?_⟩
    simp only [List.mem_range] at hk
    omega
  · rintro ⟨d, hmem, hf, hr⟩
    exact List.mem_flatMap.mpr ⟨(c, d), mem_familyMembersD.mpr ⟨hmem, hf⟩,
      List.mem_map.mpr ⟨r, by simp only [List.mem_range]; omega, rfl⟩⟩

/-- `self._neighbor_pairs`: the flattened plot-adjacency edges. -/
def neighborPairs (P : Problem) : List (Nat × Nat) :=
  P.plot_adjacency.flatMap (fun e => e.2.map (fun v => (e.1, v)))

theorem mem_neighborPairs {P : Problem} {u v : Nat} :
    (u, v) ∈ neighborPairs P ↔ ∃ e ∈ P.plot_adjacency, e.1 = u ∧ v ∈ e.2 := by
  constructor
  · intro h
    obtain ⟨e, hmem, he⟩ := List.mem_flatMap.mp h
    obtain ⟨w, hw, heq⟩ := List.mem_map.mp he
    simp only [Prod.mk.injEq] at heq
    obtain ⟨hu, hv⟩ := heq
    subst hu; subst hv
    exact ⟨e, hmem, rfl, hw⟩
  · rintro ⟨e, hmem, rfl, hw⟩
    exact List.mem_flatMap.mpr ⟨e, hmem, List.mem_map.mpr ⟨v, hw, rfl⟩⟩

/-- `max(self.grow_time.values())` (`crops` is non-empty on validated
problems, so the Python `max` is defined and equals this fold). -/
def maxGrow (P : Problem) : Nat :=
  (P.crops.map (fun e => e.2.grow_time)).foldr max 0

theorem le_foldr_max : ∀ {l : List Nat} {x : Nat}, x ∈ l → x ≤ l.foldr max 0 := by
  intro l
  induction l with
  | nil => intro x h; simp at h
  | cons a l ih =>
    intro x h
    rcases List.mem_cons.mp h with rfl | h'
    · exact le_max_left _ _
    · exact le_trans (ih h') (le_max_right _ _)

theorem le_maxGrow {P : Problem} {e : String × CropDef} (h : e ∈ P.crops) :
    e.2.grow_time ≤ maxGrow P :=
  le_foldr_max (List.mem_map_of_mem (fun x => x.2.grow_time) h)

/-- `self.gamma = 1 + max(self.grow_time.values())`. -/
def gammaP (P : Problem) : Nat := 1 + maxGrow P

/-! ### `CaseLabelDQM`

The label-indexed model: per-variable case lists (capturing both the
`_label_case` forward map `{case: k for k, case in enumerate(cases)}` and the
`_case_label` backward map `{k: case ...}`, which are determined by the case
list), and the substrate's linear and quadratic bias tables.  The substrate
(`dimod.DiscreteQuadraticModel`) keys biases by (variable, case index); since
`add_variable` fixes the bijection `case ↦ index` per variable, the tables
here are keyed by (variable, case label).  Quadratic biases are undirected:
one entry per unordered pair of (variable, case) slots, and the substrate
rejects an interaction of a variable with itself. -/

/-- The two `ValueError` causes of `add_variable` (distinguished in the code
by their messages `'variable exists: ...'` / `'cases ... are not unique'`). -/
inductive AddErr where
  | duplicateVariable
  | duplicateCase
deriving DecidableEq, Repr

structure CLDQM (V C : Type) where
  labelCase : List (V × List C)
  linear : List ((V × C) × Int)
  quad : List (((V × C) × (V × C)) × Int)
deriving DecidableEq, Repr

def emptyDQM {V C : Type} : CLDQM V C := ⟨[], [], []⟩

/-- `CaseLabelDQM.add_variable` (sequence-of-labels form).  The checks run
before any mutation, so on failure the returned state is the input state.
(The integer form `add_variable(n, label)` first runs the duplicate-variable
check, then replaces `n` by `list(range(n))`; it is `add_variable_count`.) -/
def addVariable {V C : Type} [DecidableEq V] [DecidableEq C]
    (M : CLDQM V C) (cases : List C) (label : V) : CLDQM V C × Option AddErr :=
  if (alookup M.labelCase label).isSome then (M, some .duplicateVariable)
  else if cases.Nodup then
    ({ M with labelCase := M.labelCase ++ [(label, cases)] }, none)
  else (M, some .duplicateCase)

/-- `add_variable(cases, label)` with an integer `cases`: auto-labelled
`0 .. cases-1`. -/
def add_variable_count {V : Type} [DecidableEq V]
    (M : CLDQM V Nat) (n : Nat) (label : V) : CLDQM V Nat × Option AddErr :=
  addVariable M (List.range n) label

/-- Replace the value at a key of a bias table (the substrate `set_*`
methods overwrite), appending if the key is new. -/
def setEntry {κ : Type} [DecidableEq κ] :
    List (κ × Int) → κ → Int → List (κ × Int)
  | [], k, b => [(k, b)]
  | (k', b') :: l, k, b =>
    if k' = k then (k, b) :: l else (k', b') :: setEntry l k b

/-- `CaseLabelDQM.set_linear_case`: resolve the case label (a `KeyError` on
an unknown variable or case is `none`), then overwrite the linear bias. -/
def setLinearCase {V C : Type} [DecidableEq V] [DecidableEq C]
    (M : CLDQM V C) (var : V) (case : C) (bias : Int) : Option (CLDQM V C) :=
  match alookup M.labelCase var with
  | none => none
  | some cs =>
    if case ∈ cs then some { M with linear := setEntry M.linear (var, case) bias }
    else none

/-- Overwrite the (undirected) quadratic bias of a pair of (variable, case)
slots, appending if the pair is new in either orientation. -/
def setQuadEntry {V C : Type} [DecidableEq V] [DecidableEq C] :
    List (((V × C) × (V × C)) × Int) → (V × C) → (V × C) → Int →
      List (((V × C) × (V × C)) × Int)
  | [], a, b, bias => [((a, b), bias)]
  | (k, b') :: l, a, b, bias =>
    if (k.1 = a ∧ k.2 = b) ∨ (k.1 = b ∧ k.2 = a) then (k, bias) :: l
    else (k, b') :: setQuadEntry l a b bias

/-- `CaseLabelDQM.set_quadratic_case`: resolve both case labels, then
forward to the substrate, which rejects a self-interaction (`u == v`). -/
def setQuadraticCase {V C : Type} [DecidableEq V] [DecidableEq C]
    (M : CLDQM V C) (u : V) (ucase : C) (v : V) (vcase : C) (bias : Int) :
    Option (CLDQM V C) :=
  match alookup M.labelCase u with
  | none => none
  | some ucs =>
    if ucase ∈ ucs then
      match alookup M.labelCase v with
      | none => none
      | some vcs =>
        if vcase ∈ vcs then
          if u = v then none
          else some { M with quad := setQuadEntry M.quad (u, ucase) (v, vcase) bias }
        else none
    else none

/-- `CaseLabelDQM.map_sample`: translate case indices back to case labels,
entry by entry (`KeyError` on an unknown variable or index is `none`). -/
def mapSample {V C : Type} [DecidableEq V]
    (M : CLDQM V C) : List (V × Nat) → Option (List (V × C))
  | [] => some []
  | e :: rest =>
    match alookup M.labelCase e.1 with
    | none => none
    | some cs =>
      match nthD cs e.2 with
      | none => none
      | some c =>
        match mapSample M rest with
        | none => none
        | some out => some ((e.1, c) :: out)

/-! ### The encoder: `build_dqm` -/

/-- A variable label `f'{plot},{period}'`, as the pair `(plot, period)`. -/
abbrev VarL := Nat × Nat

/-- A case label: `None` (no crop) or a crop identifier. -/
abbrev CaseL := Option String

/-- A label-space assignment (`variable label → chosen case label`), i.e. a
sample after `map_sample`. -/
abbrev Sample := List (VarL × CaseL)

/-- One four-tuple `var1, crop1, var2, crop2` yielded by a combination
generator (always paired with bias `gamma` in `build_dqm`). -/
structure QTerm where
  var1 : VarL
  crop1 : String
  var2 : VarL
  crop2 : String
deriving DecidableEq, Repr

instance : DecidableEq (((VarL × CaseL) × VarL × CaseL) × Int) := by
  infer_instance

instance : DecidableEq (List (((VarL × CaseL) × VarL × CaseL) × Int)) :=
  List.hasDecEq

/-- `CropRotation.crop_r_combinations`. -/
def crop_r_combinations (P : Problem) (plot period : Nat)
    (cropR : List (String × Nat)) : List QTerm :=
  (pairCombos cropR).filterMap (fun pr =>
    if pr.1.2 = pr.2.2 then none
    else
      let r1p := rolloverN P.time_units ((period : Int) - pr.1.2)
      if pr.1.1 ∈ periodCrops P r1p then
        let r2p := rolloverN P.time_units ((period : Int) - pr.2.2)
        if pr.2.1 ∈ periodCrops P r2p then
          some ⟨(plot, r1p), pr.1.1, (plot, r2p), pr.2.1⟩
        else none
      else none)

/-- `CropRotation.plot_crop_r_combinations`. -/
def plot_crop_r_combinations (P : Problem) (period : Nat)
    (pcr : List (Nat × String × Nat)) : List QTerm :=
  (pairCombos pcr).filterMap (fun pr =>
    if pr.1.1 = pr.2.1 ∧ pr.1.2.2 = pr.2.2.2 then none
    else
      let r1p := rolloverN P.time_units ((period : Int) - pr.1.2.2)
      if pr.1.2.1 ∈ periodCrops P r1p then
        let r2p := rolloverN P.time_units ((period : Int) - pr.2.2.2)
        if pr.2.2.1 ∈ periodCrops P r2p then
          some ⟨(pr.1.1, r1p), pr.1.2.1, (pr.2.1, r2p), pr.2.2.1⟩
        else none
      else none)

/-- The four-tuples passed to `set_quadratic_case` by the first constraint
pass of `build_dqm`, in emission order. -/
def pass1Terms (P : Problem) : List QTerm :=
  (periodsList P).flatMap (fun period =>
    (plotKeys P).flatMap (fun plot =>
      crop_r_combinations P plot period (cropRList P)))

/-- The four-tuples of the second constraint pass. -/
def pass2Terms (P : Problem) : List QTerm :=
  (periodsList P).flatMap (fun period =>
    (plotKeys P).flatMap (fun plot =>
      (familiesList P).flatMap (fun f =>
        crop_r_combinations P plot period (familyCropR P f))))

/-- The `plot_crop_r` sequence built for one neighbor pair and family in the
third constraint pass. -/
def pass3Input (P : Problem) (u v : Nat) (f : String) :
    List (Nat × String × Nat) :=
  (familyMembersD P f).flatMap (fun e =>
    ((List.range e.2.grow_time).map (fun r => (u, e.1, r))) ++
    ((List.range e.2.grow_time).map (fun r => (v, e.1, r))))

/-- The four-tuples of the third constraint pass. -/
def pass3Terms (P : Problem) : List QTerm :=
  (periodsList P).flatMap (fun period =>
    (neighborPairs P).flatMap (fun uv =>
      (familiesList P).flatMap (fun f =>
        plot_crop_r_combinations P period (pass3Input P uv.1 uv.2 f))))

/-- All quadratic penalty four-tuples emitted by `build_dqm`, in call order. -/
def allTerms (P : Problem) : List QTerm :=
  pass1Terms P ++ pass2Terms P ++ pass3Terms P

/-- The variable labels created by `build_dqm`, in creation order. -/
def varsList (P : Problem) : List VarL :=
  (periodsList P).flatMap (fun period =>
    (plotKeys P).map (fun plot => (plot, period)))

/-- The case domain of variable `(plot, period)`:
`[None] + self.period_crops[period]`. -/
def caseDomain (P : Problem) (period : Nat) : List CaseL :=
  none :: (periodCrops P period).map some

/-- The inner loop of the variable pass: set the linear bias
`-self.grow_time[crop]` for every crop case of variable `(plot, period)`. -/
def addLinearForVar (P : Problem) (plot period : Nat) (M : CLDQM VarL CaseL) :
    Option (CLDQM VarL CaseL) :=
  (periodCrops P period).foldlM (fun M2 c =>
    match growTimeOf P c with
    | none => none
    | some g => setLinearCase M2 (plot, period) (some c) (-(g : Int))) M

/-- One step of the variable pass: `add_variable` (a `ValueError` aborts)
followed by the linear biases of the new variable. -/
def addVarStep (P : Problem) (period : Nat) (M : CLDQM VarL CaseL)
    (plot : Nat) : Option (CLDQM VarL CaseL) :=
  match addVariable M (caseDomain P period) (plot, period) with
  | (_, some _) => none
  | (M', none) => addLinearForVar P plot period M'

/-- The first pass of `build_dqm`: add all variables and set the linear
biases `-grow_time[crop]`.  `none` models a raised exception
(`ValueError` from `add_variable` or a `KeyError`). -/
def buildVars (P : Problem) : Option (CLDQM VarL CaseL) :=
  (periodsList P).foldlM (fun M period =>
    (plotKeys P).foldlM (addVarStep P period) M) emptyDQM

/-- Apply `set_quadratic_case(var1, crop1, var2, crop2, gamma)` for a list of
emitted four-tuples, in order. -/
def applyQuad (P : Problem) (M : CLDQM VarL CaseL) (ts : List QTerm) :
    Option (CLDQM VarL CaseL) :=
  ts.foldlM (fun M t =>
    setQuadraticCase M t.var1 (some t.crop1) t.var2 (some t.crop2) (gammaP P)) M

/-- `CropRotation.build_dqm`: the variable/linear pass followed by the three
constraint passes (an exception anywhere aborts the build). -/
def buildDqm (P : Problem) : Option (CLDQM VarL CaseL) :=
  match buildVars P with
  | none => none
  | some M1 =>
    match applyQuad P M1 (pass1Terms P) with
    | none => none
    | some M2 =>
      match applyQuad P M2 (pass2Terms P) with
      | none => none
      | some M3 => applyQuad P M3 (pass3Terms P)

/-- A sample assigns a quadratic entry's two slots (an active penalty
term). -/
def entryActive (s : Sample) (k : (VarL × CaseL) × (VarL × CaseL)) : Prop :=
  alookup s k.1.1 = some k.1.2 ∧ alookup s k.2.1 = some k.2.2

instance (s : Sample) (k : (VarL × CaseL) × (VarL × CaseL)) :
    Decidable (entryActive s k) := by unfold entryActive; infer_instance

/-- A sample assigns both slots of an emitted four-tuple. -/
def termActive (s : Sample) (t : QTerm) : Prop :=
  alookup s t.var1 = some (some t.crop1) ∧ alookup s t.var2 = some (some t.crop2)

instance (s : Sample) (t : QTerm) : Decidable (termActive s t) := by
  unfold termActive; infer_instance

/-- The energy of a label-space assignment under the built model: the sum of
the chosen linear biases plus the sum of the active quadratic biases (each
undirected pair stored, and hence counted, once). -/
def energy (M : CLDQM VarL CaseL) (s : Sample) : Int :=
  (M.linear.map (fun e => if alookup s e.1.1 = some e.1.2 then e.2 else 0)).sum +
  (M.quad.map (fun e => if entryActive s e.1 then e.2 else 0)).sum

/-- The all-no-crop assignment: every variable takes the `None` case. -/
def allNoneSample (P : Problem) : Sample :=
  (varsList P).map (fun v => (v, (none : CaseL)))

/-! ### The validator: `CropRotation.validate`

A violation record, one constructor per constraint set; the Python code
renders each as an f-string naming the constraint number, the two variable
labels and the two crop labels (constraint 1 also prints the grow time). -/

inductive Violation where
  | c1 (var1 : VarL) (crop1 : String) (var2 : VarL) (crop2 : String) (g : Nat)
  | c2 (var1 : VarL) (crop1 : String) (var2 : VarL) (crop2 : String)
  | c3 (var1 : VarL) (crop1 : String) (var2 : VarL) (crop2 : String)
deriving DecidableEq, Repr

/-- Accumulate the results of a fallible loop body over a list, in order;
`none` (a raised exception) aborts the whole computation. -/
def optFlatMap {α β : Type} (l : List α) (f : α → Option (List β)) :
    Option (List β) :=
  match l with
  | [] => some []
  | a :: l' =>
    match f a, optFlatMap l' f with
    | some o, some rest => some (o ++ rest)
    | _, _ => none

/-- Python `range(a, b)`. -/
def rangeFrom (a b : Nat) : List Nat := (List.range (b - a)).map (· + a)

theorem mem_rangeFrom {a b x : Nat} : x ∈ rangeFrom a b ↔ a ≤ x ∧ x < b := by
  simp only [rangeFrom, List.mem_map, List.mem_range]
  constructor
  · rintro ⟨k, hk, rfl⟩
    omega
  · rintro ⟨h1, h2⟩
    exact ⟨x - a, by omega, by omega⟩

/-- Constraint-1 inner check: the occupant of `(plot, r_period)` — `None`
misses the dict (`none`), a falsy value (`None` or `''`) passes, any truthy
crop is a violation. -/
def checkOcc1 (var : VarL) (c : String) (g : Nat) (rvar : VarL) :
    Option CaseL → Option (List Violation)
  | none => none
  | some none => some []
  | some (some rc) =>
    if rc = "" then some [] else some [.c1 var c rvar rc g]

/-- Constraint-1 loop over the offsets `1 .. grow_time - 1`, given the
looked-up grow time (`self.grow_time[crop]`, `none` on a missing crop). -/
def withGrow1 (P : Problem) (s : Sample) (period plot : Nat) (c : String) :
    Option Nat → Option (List Violation)
  | none => none
  | some g =>
    optFlatMap (rangeFrom 1 g) (fun r =>
      let rp := rolloverN P.time_units ((period : Int) + r)
      checkOcc1 (plot, period) c g (plot, rp) (alookup s (plot, rp)))

/-- Constraint-1 treatment of one variable's chosen case (`if crop:`:
`None` and `''` are falsy). -/
def checkPlanted1 (P : Problem) (s : Sample) (period plot : Nat) :
    Option CaseL → Option (List Violation)
  | none => none
  | some none => some []
  | some (some c) =>
    if c = "" then some []
    else withGrow1 P s period plot c (growTimeOf P c)

/-- The body of the first constraint check of `validate`, for one
`(period, plot)`. -/
def validate1Body (P : Problem) (s : Sample) (period plot : Nat) :
    Option (List Violation) :=
  checkPlanted1 P s period plot (alookup s (plot, period))

/-- First constraint check of `validate`. -/
def validate1 (P : Problem) (s : Sample) : Option (List Violation) :=
  optFlatMap (periodsList P) (fun period =>
    optFlatMap (plotKeys P) (fun plot => validate1Body P s period plot))

/-- Constraint-2 inner check: the occupant is tested by membership in
`related_crops = set(self.crop_families[family]) - {crop}` (no truthiness
test). -/
def checkOcc2 (P : Problem) (var : VarL) (c : String) (f : String)
    (rvar : VarL) : Option CaseL → Option (List Violation)
  | none => none
  | some none => some []
  | some (some rc) =>
    if rc ∈ (familyMembers P f).filter (fun x => x ≠ c) then
      some [.c2 var c rvar rc]
    else some []

/-- Constraint-2 loop over the offsets `1 .. grow_time`, given the crop's
definition (`self.crops[crop]`, `none` on a missing crop). -/
def withCrop2 (P : Problem) (s : Sample) (period plot : Nat) (c : String) :
    Option CropDef → Option (List Violation)
  | none => none
  | some d =>
    optFlatMap (rangeFrom 1 (d.grow_time + 1)) (fun r =>
      let rp := rolloverN P.time_units ((period : Int) + r)
      checkOcc2 P (plot, period) c d.family (plot, rp) (alookup s (plot, rp)))

/-- Constraint-2 treatment of one variable's chosen case. -/
def checkPlanted2 (P : Problem) (s : Sample) (period plot : Nat) :
    Option CaseL → Option (List Violation)
  | none => none
  | some none => some []
  | some (some c) =>
    if c = "" then some []
    else withCrop2 P s period plot c (alookup P.crops c)

/-- The body of the second constraint check, for one `(period, plot)`. -/
def validate2Body (P : Problem) (s : Sample) (period plot : Nat) :
    Option (List Violation) :=
  checkPlanted2 P s period plot (alookup s (plot, period))

/-- Second constraint check of `validate`. -/
def validate2 (P : Problem) (s : Sample) : Option (List Violation) :=
  optFlatMap (periodsList P) (fun period =>
    optFlatMap (plotKeys P) (fun plot => validate2Body P s period plot))

/-- Constraint-3 inner check: the neighbor's occupant is tested against the
full family (the crop itself included). -/
def checkOcc3 (P : Problem) (var : VarL) (c : String) (f : String)
    (var2 : VarL) : Option CaseL → Option (List Violation)
  | none => none
  | some none => some []
  | some (some c2) =>
    if c2 ∈ familyMembers P f then some [.c3 var c var2 c2]
    else some []

/-- Constraint-3 loops over the offsets `0 .. grow_time - 1` and the
neighbors, given the crop's definition. -/
def withCrop3 (P : Problem) (s : Sample) (period plot : Nat)
    (neighbors : List Nat) (c : String) :
    Option CropDef → Option (List Violation)
  | none => none
  | some d =>
    optFlatMap (rangeFrom 0 d.grow_time) (fun r =>
      let rp := rolloverN P.time_units ((period : Int) + r)
      optFlatMap neighbors (fun neighbor =>
        checkOcc3 P (plot, period) c d.family (neighbor, rp)
          (alookup s (neighbor, rp))))

/-- Constraint-3 treatment of one variable's chosen case. -/
def checkPlanted3 (P : Problem) (s : Sample) (period plot : Nat)
    (neighbors : List Nat) : Option CaseL → Option (List Violation)
  | none => none
  | some none => some []
  | some (some c) =>
    if c = "" then some []
    else withCrop3 P s period plot neighbors c (alookup P.crops c)

/-- The body of the third constraint check, for one period and one
adjacency entry `(plot, neighbors)`. -/
def validate3Body (P : Problem) (s : Sample) (period : Nat)
    (e : Nat × List Nat) : Option (List Violation) :=
  checkPlanted3 P s period e.1 e.2 (alookup s (e.1, period))

/-- Third constraint check of `validate`. -/
def validate3 (P : Problem) (s : Sample) : Option (List Violation) :=
  optFlatMap (periodsList P) (fun period =>
    optFlatMap P.plot_adjacency (fun e => validate3Body P s period e))

/-- `CropRotation.validate`: the three checks in order, accumulating the
violation records; `none` models a raised exception. -/
def validate (P : Problem) (s : Sample) : Option (List Violation) :=
  match validate1 P s, validate2 P s, validate3 P s with
  | some e1, some e2, some e3 => some (e1 ++ e2 ++ e3)
  | _, _, _ => none

/-! ### Concrete instances -/

/-- The problem of `TestCropRotation.test_build_dqm`: `time_units = 2`, one
plot `1` with no neighbors, one crop `x` of family `y` with planting window
`[1, 2]` and `grow_time = 1`. -/
def exProblem : Problem :=
  ⟨2, [(1, [])], [("x", ⟨"y", (1, 2), 1⟩)]⟩

/-- The assignment planting `x` on plot `1` in both periods (legal
self-repetition: `grow_time = 1`, no overlap). -/
def exSelfSample : Sample := [((1, 1), some "x"), ((1, 2), some "x")]

/-- A validated problem whose `grow_time` reaches `time_units`:
`time_units = 1`, one plot, one crop with `grow_time = 1`. -/
def exT1 : Problem :=
  ⟨1, [(1, [])], [("x", ⟨"y", (1, 1), 1⟩)]⟩

/-! ### Claim theorems -/

/-- C3: for every integer `x` and every `time_units ≥ 1`, `rollover_period`
terminates (its fuel-based embedding is total and meets its loop
specification) and returns the unique `v` with `1 ≤ v ≤ time_units` and
`v ≡ x (mod time_units)`, namely `1 + ((x - 1) mod time_units)` with
mathematical (non-truncating) modulo. -/
theorem c3_rollover_period_unique (T : Nat) (x : Int) (hT : 1 ≤ T) :
    1 ≤ rollover_period T x ∧ rollover_period T x ≤ T ∧
      rollover_period T x % T = x % T ∧
      rollover_period T x = 1 + (x - 1) % T ∧
      ∀ v : Int, 1 ≤ v → v ≤ T → v % T = x % T → v = rollover_period T x := by
  have hs := rollover_period_spec T hT x
  refine ⟨hs.1, hs.2.1, hs.2.2, rollover_period_closed_form T hT x, ?_⟩
  intro v h1 h2 hm
  exact (rollover_period_eq_of T hT x v h1 h2 hm).symm

theorem c3_witness : rollover_period 3 (-5) = 1 := by
  have h := (c3_rollover_period_unique 3 (-5) (by decide)).2.2.2.1
  rw [h]
  decide

/-- C5 counterexample: on the concrete instance of the claim
(`time_units = 2`, one plot without neighbors, one crop `x` with
`grow_time = 1` and window `[1, 2]`), `build_dqm` does *not* produce zero
pairwise penalty terms: the second constraint pass emits two four-tuples
(the two orientations of the same unordered pair), and the built model
stores one pairwise interaction. -/
theorem c5_counterexample :
    allTerms exProblem ≠ [] ∧
      (buildDqm exProblem).map (fun M => M.quad.length) = some 1 := by decide

/-- C5 amended: on the concrete instance, `build_dqm` produces exactly 2
variables and 4 total cases, each variable having case domain
`[None, 'x']`; the first and third constraint passes emit no four-tuples,
but the second pass emits the pair between crop `x` at period 1 and crop
`x` at period 2 (in both orientations), stored as one pairwise interaction
with bias `gamma = 2`. -/
theorem c5_build_dqm_instance :
    ValidProblem exProblem ∧
      buildVars exProblem =
        some ⟨[((1, 1), [none, some "x"]), ((1, 2), [none, some "x"])],
          [(((1, 1), some "x"), -1), (((1, 2), some "x"), -1)], []⟩ ∧
      (buildDqm exProblem).map (fun M => M.labelCase.length) = some 2 ∧
      (buildDqm exProblem).map
          (fun M => (M.labelCase.map (fun e => e.2.length)).sum) = some 4 ∧
      pass1Terms exProblem = [] ∧
      pass3Terms exProblem = [] ∧
      pass2Terms exProblem =
        [⟨(1, 1), "x", (1, 2), "x"⟩, ⟨(1, 2), "x", (1, 1), "x"⟩] ∧
      (buildDqm exProblem).map (fun M => M.quad) =
        some [((((1, 1), some "x"), ((1, 2), some "x")), 2)] := by
  refine ⟨by decide, by decide, by decide, by decide, by decide, by decide,
    by decide, by decide⟩

/-- Helper: looking up in an appended association list. -/
theorem alookup_append {κ β : Type} [DecidableEq κ]
    (l1 l2 : List (κ × β)) (k : κ) :
    alookup (l1 ++ l2) k =
      match alookup l1 k with
      | some v => some v
      | none => alookup l2 k := by
  induction l1 with
  | nil => simp [alookup]
  | cons e l ih =>
    obtain ⟨a, b⟩ := e
    by_cases hk : k = a
    · simp [alookup, hk]
    · simp [alookup, hk, ih]

/-- C7: `add_variable` with an already-registered label fails with the
duplicate-variable error, and with non-distinct case labels fails with the
duplicate-case error; in both failure cases the returned state is exactly
the input state (the checks precede every mutation). -/
theorem c7_add_variable_duplicates {V C : Type} [DecidableEq V] [DecidableEq C]
    (M : CLDQM V C) (cases : List C) (label : V) :
    ((∃ cs, alookup M.labelCase label = some cs) →
      addVariable M cases label = (M, some AddErr.duplicateVariable)) ∧
    (alookup M.labelCase label = none → ¬ cases.Nodup →
      addVariable M cases label = (M, some AddErr.duplicateCase)) := by
  constructor
  · rintro ⟨cs, h⟩
    simp [addVariable, h]
  · intro h hnd
    simp [addVariable, h, hnd]

theorem c7_witness :
    addVariable (⟨[(0, [5])], [], []⟩ : CLDQM Nat Nat) [1, 2] 0 =
        (⟨[(0, [5])], [], []⟩, some AddErr.duplicateVariable) ∧
      addVariable (⟨[(0, [5])], [], []⟩ : CLDQM Nat Nat) [1, 1] 1 =
        (⟨[(0, [5])], [], []⟩, some AddErr.duplicateCase) :=
  ⟨(c7_add_variable_duplicates _ _ _).1 ⟨[5], by decide⟩,
    (c7_add_variable_duplicates _ _ _).2 (by decide) (by decide)⟩

/-- C6: the case maps registered by a successful `add_variable` are mutually
inverse and order-preserving: the new label resolves to exactly the supplied
case list (with its distinctness established), `map_sample` applied to
`{variable: index_of(case)}` returns `{variable: case}`, and the index of
the `k`-th supplied case is `k`. -/
theorem c6_map_sample_round_trip {V C : Type} [DecidableEq V] [DecidableEq C] :
    (∀ (M M' : CLDQM V C) (cases : List C) (label : V),
        addVariable M cases label = (M', none) →
        alookup M'.labelCase label = some cases ∧ cases.Nodup) ∧
    (∀ (M : CLDQM V C) (label : V) (cases : List C) (c : C),
        alookup M.labelCase label = some cases → c ∈ cases →
        mapSample M [(label, idxOfD c cases)] = some [(label, c)]) ∧
    (∀ (cases : List C), cases.Nodup →
        ∀ (k : Nat) (c : C), nthD cases k = some c → idxOfD c cases = k) := by
  refine ⟨?_, ?_, ?_⟩
  · intro M M' cases label h
    have hnone : alookup M.labelCase label = none := by
      cases he : alookup M.labelCase label with
      | none => rfl
      | some v =>
        rw [addVariable] at h
        simp [he] at h
    by_cases hnd : cases.Nodup
    · rw [addVariable] at h
      simp only [hnone, Option.isSome_none, Bool.false_eq_true, if_false, hnd,
        if_true] at h
      have hM' : ({ M with labelCase := M.labelCase ++ [(label, cases)] }
          : CLDQM V C) = M' := congrArg Prod.fst h
      subst hM'
      refine ⟨?_, hnd⟩
      show alookup (M.labelCase ++ [(label, cases)]) label = some cases
      rw [alookup_append, hnone]
      simp [alookup]
    · rw [addVariable] at h
      simp [hnone, hnd] at h
  · intro M label cases c h hc
    simp [mapSample, h, nthD_idxOfD hc]
  · intro cases hnd k c h
    exact idxOfD_nthD hnd h

theorem c6_witness :
    mapSample (⟨[(0, ["a", "b"])], [], []⟩ : CLDQM Nat String)
        [(0, idxOfD "b" ["a", "b"])] = some [(0, "b")] :=
  (c6_map_sample_round_trip.2.1) _ 0 ["a", "b"] "b" (by decide) (by decide)

/-! ### Inversion and introduction for the combination generators -/

theorem crop_r_combinations_inv {P : Problem} {plot period : Nat}
    {cropR : List (String × Nat)} {t : QTerm}
    (h : t ∈ crop_r_combinations P plot period cropR) :
    ∃ c1 r1 c2 r2, ((c1, r1), (c2, r2)) ∈ pairCombos cropR ∧ r1 ≠ r2 ∧
      c1 ∈ periodCrops P (rolloverN P.time_units ((period : Int) - r1)) ∧
      c2 ∈ periodCrops P (rolloverN P.time_units ((period : Int) - r2)) ∧
      t = ⟨(plot, rolloverN P.time_units ((period : Int) - r1)), c1,
        (plot, rolloverN P.time_units ((period : Int) - r2)), c2⟩ := by
  obtain ⟨pr, hpr, hf⟩ := List.mem_filterMap.mp h
  obtain ⟨⟨c1, r1⟩, ⟨c2, r2⟩⟩ := pr
  by_cases h12 : r1 = r2
  · simp [h12] at hf
  · by_cases hm1 : c1 ∈ periodCrops P (rolloverN P.time_units ((period : Int) - r1))
    · by_cases hm2 : c2 ∈ periodCrops P (rolloverN P.time_units ((period : Int) - r2))
      · simp only [h12, if_false, hm1, hm2, if_true] at hf
        exact ⟨c1, r1, c2, r2, hpr, h12, hm1, hm2, (Option.some.injEq .. ▸ hf).symm⟩
      · simp [h12, hm1, hm2] at hf
    · simp [h12, hm1] at hf

theorem crop_r_combinations_intro {P : Problem} {plot period : Nat}
    {cropR : List (String × Nat)} {c1 c2 : String} {r1 r2 : Nat}
    (hpr : ((c1, r1), (c2, r2)) ∈ pairCombos cropR) (h12 : r1 ≠ r2)
    (hm1 : c1 ∈ periodCrops P (rolloverN P.time_units ((period : Int) - r1)))
    (hm2 : c2 ∈ periodCrops P (rolloverN P.time_units ((period : Int) - r2))) :
    (⟨(plot, rolloverN P.time_units ((period : Int) - r1)), c1,
      (plot, rolloverN P.time_units ((period : Int) - r2)), c2⟩ : QTerm) ∈
      crop_r_combinations P plot period cropR :=
  List.mem_filterMap.mpr ⟨((c1, r1), (c2, r2)), hpr, by simp [h12, hm1, hm2]⟩

theorem plot_crop_r_combinations_inv {P : Problem} {period : Nat}
    {pcr : List (Nat × String × Nat)} {t : QTerm}
    (h : t ∈ plot_crop_r_combinations P period pcr) :
    ∃ u c1 r1 v c2 r2, ((u, c1, r1), (v, c2, r2)) ∈ pairCombos pcr ∧
      ¬(u = v ∧ r1 = r2) ∧
      c1 ∈ periodCrops P (rolloverN P.time_units ((period : Int) - r1)) ∧
      c2 ∈ periodCrops P (rolloverN P.time_units ((period : Int) - r2)) ∧
      t = ⟨(u, rolloverN P.time_units ((period : Int) - r1)), c1,
        (v, rolloverN P.time_units ((period : Int) - r2)), c2⟩ := by
  obtain ⟨pr, hpr, hf⟩ := List.mem_filterMap.mp h
  obtain ⟨⟨u, c1, r1⟩, ⟨v, c2, r2⟩⟩ := pr
  by_cases h12 : u = v ∧ r1 = r2
  · simp [h12] at hf
  · by_cases hm1 : c1 ∈ periodCrops P (rolloverN P.time_units ((period : Int) - r1))
    · by_cases hm2 : c2 ∈ periodCrops P (rolloverN P.time_units ((period : Int) - r2))
      · simp only [h12, if_false, hm1, hm2, if_true] at hf
        exact ⟨u, c1, r1, v, c2, r2, hpr, h12, hm1, hm2,
          (Option.some.injEq .. ▸ hf).symm⟩
      · simp [h12, hm1, hm2] at hf
    · simp [h12, hm1] at hf

theorem plot_crop_r_combinations_intro {P : Problem} {period : Nat}
    {pcr : List (Nat × String × Nat)} {u v : Nat} {c1 c2 : String} {r1 r2 : Nat}
    (hpr : ((u, c1, r1), (v, c2, r2)) ∈ pairCombos pcr)
    (h12 : ¬(u = v ∧ r1 = r2))
    (hm1 : c1 ∈ periodCrops P (rolloverN P.time_units ((period : Int) - r1)))
    (hm2 : c2 ∈ periodCrops P (rolloverN P.time_units ((period : Int) - r2))) :
    (⟨(u, rolloverN P.time_units ((period : Int) - r1)), c1,
      (v, rolloverN P.time_units ((period : Int) - r2)), c2⟩ : QTerm) ∈
      plot_crop_r_combinations P period pcr :=
  List.mem_filterMap.mpr ⟨((u, c1, r1), (v, c2, r2)), hpr, by simp [h12, hm1, hm2]⟩

theorem mem_pass3Input {P : Problem} {u v : Nat} {f : String} {w : Nat}
    {c : String} {r : Nat} :
    (w, c, r) ∈ pass3Input P u v f ↔
      ∃ d, (c, d) ∈ P.crops ∧ d.family = f ∧ r < d.grow_time ∧
        (w = u ∨ w = v) := by
  constructor
  · intro h
    obtain ⟨e, hmem, he⟩ := List.mem_flatMap.mp h
    obtain ⟨hmem2, hf⟩ := mem_familyMembersD.mp hmem
    rcases List.mem_append.mp he with h' | h' <;>
    · obtain ⟨k, hk, heq⟩ := List.mem_map.mp h'
      simp only [Prod.mk.injEq] at heq
      obtain ⟨h1, h2, h3⟩ := heq
      subst h2; subst h3
      exact ⟨e.2, by simpa using hmem2, hf, by simpa using hk, by simp [h1]⟩
  · rintro ⟨d, hmem, hf, hr, hw⟩
    apply List.mem_flatMap.mpr
    refine ⟨(c, d), mem_familyMembersD.mpr ⟨hmem, hf⟩, List.mem_append.mpr ?_⟩
    rcases hw with rfl | rfl
    · exact Or.inl (List.mem_map.mpr ⟨r, List.mem_range.mpr hr, rfl⟩)
    · exact Or.inr (List.mem_map.mpr ⟨r, List.mem_range.mpr hr, rfl⟩)

/-! ### Distinct-variable safety of the quadratic passes -/

theorem crop_r_comb_vars_ne {P : Problem} (hT : 1 ≤ P.time_units)
    {plot period : Nat} {cropR : List (String × Nat)}
    (hbound : ∀ cr ∈ cropR, cr.2 < P.time_units) :
    ∀ t ∈ crop_r_combinations P plot period cropR, t.var1 ≠ t.var2 := by
  intro t ht
  obtain ⟨c1, r1, c2, r2, hpr, h12, hm1, hm2, rfl⟩ := crop_r_combinations_inv ht
  obtain ⟨h1, h2⟩ := mem_of_mem_pairCombos hpr
  intro heq
  simp only [Prod.mk.injEq, true_and] at heq
  exact h12 (rolloverN_offset_inj P.time_units hT _ r1 r2
    (hbound _ h1) (hbound _ h2) heq)

theorem plot_crop_r_comb_vars_ne {P : Problem} (hT : 1 ≤ P.time_units)
    {period : Nat} {pcr : List (Nat × String × Nat)}
    (hbound : ∀ x ∈ pcr, x.2.2 < P.time_units) :
    ∀ t ∈ plot_crop_r_combinations P period pcr, t.var1 ≠ t.var2 := by
  intro t ht
  obtain ⟨u, c1, r1, v, c2, r2, hpr, h12, hm1, hm2, rfl⟩ :=
    plot_crop_r_combinations_inv ht
  obtain ⟨h1, h2⟩ := mem_of_mem_pairCombos hpr
  intro heq
  simp only [Prod.mk.injEq] at heq
  obtain ⟨huv, hs⟩ := heq
  have hr12 : r1 ≠ r2 := fun hc => h12 ⟨huv, hc⟩
  exact hr12 (rolloverN_offset_inj P.time_units hT _ r1 r2
    (hbound _ h1) (hbound _ h2) hs)

/-- C10: if every `grow_time` is strictly below `time_units`, every
four-tuple yielded by the combination generators during the three quadratic
passes of `build_dqm` names two distinct variables; when some `grow_time`
reaches `time_units` this fails (on `exT1`, the second pass yields a
four-tuple whose two variables coincide, because two distinct offsets roll
over to the same period). -/
theorem c10_quadratic_pass_var_safety :
    (∀ P : Problem, ValidProblem P →
        (∀ e ∈ P.crops, e.2.grow_time < P.time_units) →
        ∀ t ∈ allTerms P, t.var1 ≠ t.var2) ∧
      (ValidProblem exT1 ∧ (∃ e ∈ exT1.crops, e.2.grow_time = exT1.time_units) ∧
        ∃ t ∈ pass2Terms exT1, t.var1 = t.var2) := by
  constructor
  · intro P hval hg t ht
    have hT : 1 ≤ P.time_units := hval.1
    rcases List.mem_append.mp ht with h' | h3
    · rcases List.mem_append.mp h' with h1 | h2
      · -- first pass
        obtain ⟨period, -, h1'⟩ := List.mem_flatMap.mp h1
        obtain ⟨plot, -, h1''⟩ := List.mem_flatMap.mp h1'
        refine crop_r_comb_vars_ne hT ?_ t h1''
        rintro ⟨c, r⟩ hcr
        obtain ⟨d, hd, hr⟩ := mem_cropRList.mp hcr
        exact lt_of_lt_of_le hr (le_of_lt (hg (c, d) hd))
      · -- second pass
        obtain ⟨period, -, h2'⟩ := List.mem_flatMap.mp h2
        obtain ⟨plot, -, h2''⟩ := List.mem_flatMap.mp h2'
        obtain ⟨f, -, h2'''⟩ := List.mem_flatMap.mp h2''
        refine crop_r_comb_vars_ne hT ?_ t h2'''
        rintro ⟨c, r⟩ hcr
        obtain ⟨d, hd, -, hr⟩ := mem_familyCropR.mp hcr
        exact lt_of_le_of_lt hr (hg (c, d) hd)
    · -- third pass
      obtain ⟨period, -, h3'⟩ := List.mem_flatMap.mp h3
      obtain ⟨uv, -, h3''⟩ := List.mem_flatMap.mp h3'
      obtain ⟨f, -, h3'''⟩ := List.mem_flatMap.mp h3''
      refine plot_crop_r_comb_vars_ne hT ?_ t h3'''
      rintro ⟨w, c, r⟩ hx
      obtain ⟨d, hd, -, hr, -⟩ := mem_pass3Input.mp hx
      exact lt_of_lt_of_le hr (le_of_lt (hg (c, d) hd))
  · exact ⟨by decide, by decide, by decide⟩

theorem c10_witness :
    (⟨(1, 1), "x", (1, 2), "x"⟩ : QTerm).var1 ≠
      (⟨(1, 1), "x", (1, 2), "x"⟩ : QTerm).var2 :=
  c10_quadratic_pass_var_safety.1 exProblem (by decide) (by decide)
    ⟨(1, 1), "x", (1, 2), "x"⟩ (by decide)

/-! ### Invariants of the built model -/

/-- Invariant preservation through a fallible left fold. -/
theorem foldlM_option_inv {α σ : Type} (I : σ → Prop) :
    ∀ (l : List α) (f : σ → α → Option σ),
      (∀ s a s', a ∈ l → I s → f s a = some s' → I s') →
      ∀ s s', l.foldlM f s = some s' → I s → I s' := by
  intro l
  induction l with
  | nil =>
    intro f hf s s' h hI
    simp only [List.foldlM_nil] at h
    cases h
    exact hI
  | cons a l ih =>
    intro f hf s s' h hI
    rw [List.foldlM_cons] at h
    cases hfa : f s a with
    | none => rw [hfa] at h; simp at h
    | some s1 =>
      rw [hfa] at h
      have h' : l.foldlM f s1 = some s' := h
      exact ih f (fun s2 a' s2' ha => hf s2 a' s2' (List.mem_cons_of_mem _ ha))
        s1 s' h' (hf s a s1 (List.mem_cons_self _ _) hI hfa)

theorem setEntry_inv {κ : Type} [DecidableEq κ] (Q : κ × Int → Prop) :
    ∀ (l : List (κ × Int)) (k : κ) (b : Int),
      (∀ e ∈ l, Q e) → Q (k, b) → ∀ e ∈ setEntry l k b, Q e := by
  intro l
  induction l with
  | nil =>
    intro k b _ hQ e he
    simp only [setEntry, List.mem_singleton] at he
    exact he ▸ hQ
  | cons x l ih =>
    intro k b hl hQ e he
    obtain ⟨k', b'⟩ := x
    by_cases hk : k' = k
    · simp only [setEntry, hk, if_true] at he
      rcases List.mem_cons.mp he with rfl | he'
      · exact hk ▸ hQ
      · exact hl _ (List.mem_cons_of_mem _ he')
    · simp only [setEntry, hk, if_false] at he
      rcases List.mem_cons.mp he with rfl | he'
      · exact hl _ (List.mem_cons_self _ _)
      · exact ih k b (fun e' he2 => hl _ (List.mem_cons_of_mem _ he2)) hQ e he'

theorem setQuadEntry_inv {V C : Type} [DecidableEq V] [DecidableEq C]
    (Q : ((V × C) × (V × C)) × Int → Prop)
    (hQswap : ∀ a b bias, Q ((a, b), bias) → Q ((b, a), bias)) :
    ∀ (l : List (((V × C) × (V × C)) × Int)) (a b : V × C) (bias : Int),
      (∀ e ∈ l, Q e) → Q ((a, b), bias) → ∀ e ∈ setQuadEntry l a b bias, Q e := by
  intro l
  induction l with
  | nil =>
    intro a b bias _ hQ e he
    simp only [setQuadEntry, List.mem_singleton] at he
    exact he ▸ hQ
  | cons x l ih =>
    intro a b bias hl hQ e he
    obtain ⟨k, b'⟩ := x
    by_cases hk : (k.1 = a ∧ k.2 = b) ∨ (k.1 = b ∧ k.2 = a)
    · simp only [setQuadEntry, hk, if_true] at he
      rcases List.mem_cons.mp he with rfl | he'
      · rcases hk with ⟨h1, h2⟩ | ⟨h1, h2⟩
        · have : k = (a, b) := Prod.ext h1 h2
          rw [this]
          exact hQ
        · have : k = (b, a) := Prod.ext h1 h2
          rw [this]
          exact hQswap a b bias hQ
      · exact hl _ (List.mem_cons_of_mem _ he')
    · simp only [setQuadEntry, hk, if_false] at he
      rcases List.mem_cons.mp he with rfl | he'
      · exact hl _ (List.mem_cons_self _ _)
      · exact ih a b bias (fun e' he2 => hl _ (List.mem_cons_of_mem _ he2)) hQ e he'

theorem addVariable_some {V C : Type} [DecidableEq V] [DecidableEq C]
    {M M' : CLDQM V C} {cases : List C} {label : V}
    (h : addVariable M cases label = (M', none)) :
    alookup M.labelCase label = none ∧ cases.Nodup ∧
      M' = { M with labelCase := M.labelCase ++ [(label, cases)] } := by
  have hnone : alookup M.labelCase label = none := by
    cases he : alookup M.labelCase label with
    | none => rfl
    | some v =>
      rw [addVariable] at h
      simp [he] at h
  by_cases hnd : cases.Nodup
  · rw [addVariable] at h
    simp only [hnone, Option.isSome_none, Bool.false_eq_true, if_false, hnd,
      if_true] at h
    exact ⟨hnone, hnd, (congrArg Prod.fst h).symm⟩
  · rw [addVariable] at h
    simp [hnone, hnd] at h

theorem setLinearCase_some {V C : Type} [DecidableEq V] [DecidableEq C]
    {M M' : CLDQM V C} {var : V} {case : C} {bias : Int}
    (h : setLinearCase M var case bias = some M') :
    M'.labelCase = M.labelCase ∧ M'.quad = M.quad ∧
      M'.linear = setEntry M.linear (var, case) bias := by
  unfold setLinearCase at h
  split at h
  · exact absurd h (by simp)
  · split at h
    · cases h
      exact ⟨rfl, rfl, rfl⟩
    · exact absurd h (by simp)

theorem setQuadraticCase_some {V C : Type} [DecidableEq V] [DecidableEq C]
    {M M' : CLDQM V C} {u v : V} {uc vc : C} {bias : Int}
    (h : setQuadraticCase M u uc v vc bias = some M') :
    M'.labelCase = M.labelCase ∧ M'.linear = M.linear ∧ u ≠ v ∧
      M'.quad = setQuadEntry M.quad (u, uc) (v, vc) bias := by
  unfold setQuadraticCase at h
  cases hu : alookup M.labelCase u with
  | none =>
    simp only [hu] at h
    exact Option.noConfusion h
  | some ucs =>
    simp only [hu] at h
    by_cases huc : uc ∈ ucs
    · rw [if_pos huc] at h
      cases hv : alookup M.labelCase v with
      | none =>
        simp only [hv] at h
        exact Option.noConfusion h
      | some vcs =>
        simp only [hv] at h
        by_cases hvc : vc ∈ vcs
        · rw [if_pos hvc] at h
          by_cases huv : u = v
          · rw [if_pos huv] at h
            exact absurd h (by simp)
          · rw [if_neg huv] at h
            cases h
            exact ⟨rfl, rfl, huv, rfl⟩
        · rw [if_neg hvc] at h
          exact absurd h (by simp)
    · rw [if_neg huc] at h
      exact absurd h (by simp)

/-- Shape of a linear-bias entry written by `build_dqm`: a crop case
(never the no-crop case) with non-positive bias. -/
def LinEntryOk (e : (VarL × CaseL) × Int) : Prop :=
  (∃ v c, e.1 = (v, some c)) ∧ e.2 ≤ 0

/-- Shape of a quadratic-bias entry written by `build_dqm`: both slots are
crop cases, and the bias is `gamma`. -/
def QuadEntryOk (P : Problem) (e : ((VarL × CaseL) × (VarL × CaseL)) × Int) :
    Prop :=
  (∃ v1 c1 v2 c2, e.1 = ((v1, some c1), (v2, some c2))) ∧ e.2 = (gammaP P : Int)

theorem buildVars_inv {P : Problem} {M : CLDQM VarL CaseL}
    (h : buildVars P = some M) :
    (∀ e ∈ M.linear, LinEntryOk e) ∧ M.quad = [] := by
  refine foldlM_option_inv
    (fun N => (∀ e ∈ N.linear, LinEntryOk e) ∧ N.quad = [])
    (periodsList P) _ ?_ emptyDQM M h
    ⟨fun e he => absurd he (List.not_mem_nil e), rfl⟩
  intro N period N' hper hI hstep
  refine foldlM_option_inv
    (fun N => (∀ e ∈ N.linear, LinEntryOk e) ∧ N.quad = [])
    (plotKeys P) _ ?_ N N' hstep hI
  intro N2 plot N3 hplot hI2 hstep2
  rw [addVarStep] at hstep2
  split at hstep2
  · exact absurd hstep2 (by simp)
  · next Ma heq =>
    obtain ⟨-, -, hMa⟩ := addVariable_some heq
    have hIa : (∀ e ∈ Ma.linear, LinEntryOk e) ∧ Ma.quad = [] := by
      rw [hMa]
      exact hI2
    rw [addLinearForVar] at hstep2
    refine foldlM_option_inv
      (fun N => (∀ e ∈ N.linear, LinEntryOk e) ∧ N.quad = [])
      (periodCrops P period) _ ?_ Ma N3 hstep2 hIa
    intro N4 c N5 hc hI4 hstep4
    split at hstep4
    · exact absurd hstep4 (by simp)
    · next g hg =>
      obtain ⟨-, hq, hlin⟩ := setLinearCase_some hstep4
      constructor
      · rw [hlin]
        refine setEntry_inv LinEntryOk _ _ _ hI4.1 ?_
        exact ⟨⟨(plot, period), c, rfl⟩, by omega⟩
      · rw [hq]
        exact hI4.2

theorem applyQuad_inv {P : Problem} {ts : List QTerm} {M M' : CLDQM VarL CaseL}
    (h : applyQuad P M ts = some M')
    (hq : ∀ e ∈ M.quad, QuadEntryOk P e) :
    M'.labelCase = M.labelCase ∧ M'.linear = M.linear ∧
      ∀ e ∈ M'.quad, QuadEntryOk P e := by
  refine foldlM_option_inv
    (fun N => N.labelCase = M.labelCase ∧ N.linear = M.linear ∧
      ∀ e ∈ N.quad, QuadEntryOk P e)
    ts _ ?_ M M' h ⟨rfl, rfl, hq⟩
  intro N t N' ht hI hstep
  obtain ⟨hl, hlin, -, hquad⟩ := setQuadraticCase_some hstep
  refine ⟨hl.trans hI.1, hlin.trans hI.2.1, ?_⟩
  rw [hquad]
  refine setQuadEntry_inv (QuadEntryOk P) ?_ _ _ _ _ hI.2.2 ?_
  · rintro a b bias ⟨⟨v1, c1, v2, c2, hk⟩, hb⟩
    simp only [Prod.mk.injEq] at hk
    exact ⟨⟨v2, c2, v1, c1, by
      simp only [Prod.mk.injEq]
      exact ⟨hk.2, hk.1⟩⟩, hb⟩
  · exact ⟨⟨t.var1, t.crop1, t.var2, t.crop2, rfl⟩, rfl⟩

theorem buildDqm_inv {P : Problem} {M : CLDQM VarL CaseL}
    (h : buildDqm P = some M) :
    (∀ e ∈ M.linear, LinEntryOk e) ∧ ∀ e ∈ M.quad, QuadEntryOk P e := by
  unfold buildDqm at h
  cases hb : buildVars P with
  | none =>
    simp only [hb] at h
    exact Option.noConfusion h
  | some M1 =>
    simp only [hb] at h
    cases h1 : applyQuad P M1 (pass1Terms P) with
    | none =>
      simp only [h1] at h
      exact Option.noConfusion h
    | some M2 =>
      simp only [h1] at h
      cases h2 : applyQuad P M2 (pass2Terms P) with
      | none =>
        simp only [h2] at h
        exact Option.noConfusion h
      | some M3 =>
        simp only [h2] at h
        obtain ⟨hlin1, hq1⟩ := buildVars_inv hb
        have e1 := applyQuad_inv h1 (by rw [hq1]; intro e he; simp at he)
        have e2 := applyQuad_inv h2 e1.2.2
        have e3 := applyQuad_inv h e2.2.2
        refine ⟨?_, e3.2.2⟩
        rw [e3.2.1, e2.2.1, e1.2.1]
        exact hlin1

/-! ### Energy of the built model -/

theorem list_sum_nonpos : ∀ {l : List Int}, (∀ x ∈ l, x ≤ 0) → l.sum ≤ 0 := by
  intro l
  induction l with
  | nil => intro _; simp
  | cons a l ih =>
    intro h
    have h1 := h a (List.mem_cons_self _ _)
    have h2 := ih (fun x hx => h x (List.mem_cons_of_mem _ hx))
    simp only [List.sum_cons]
    omega

theorem list_sum_nonneg_int : ∀ {l : List Int}, (∀ x ∈ l, 0 ≤ x) → 0 ≤ l.sum := by
  intro l
  induction l with
  | nil => intro _; simp
  | cons a l ih =>
    intro h
    have h1 := h a (List.mem_cons_self _ _)
    have h2 := ih (fun x hx => h x (List.mem_cons_of_mem _ hx))
    simp only [List.sum_cons]
    omega

theorem list_le_sum : ∀ {l : List Int}, (∀ x ∈ l, 0 ≤ x) →
    ∀ {x : Int}, x ∈ l → x ≤ l.sum := by
  intro l
  induction l with
  | nil => intro _ x hx; simp at hx
  | cons a l ih =>
    intro h x hx
    have h2 := list_sum_nonneg_int (fun y hy => h y (List.mem_cons_of_mem _ hy))
    rcases List.mem_cons.mp hx with rfl | hx'
    · simp only [List.sum_cons]
      omega
    · have h1 := h a (List.mem_cons_self _ _)
      have := ih (fun y hy => h y (List.mem_cons_of_mem _ hy)) hx'
      simp only [List.sum_cons]
      omega

theorem list_sum_zero : ∀ {l : List Int}, (∀ x ∈ l, x = 0) → l.sum = 0 := by
  intro l
  induction l with
  | nil => intro _; simp
  | cons a l ih =>
    intro h
    have h1 := h a (List.mem_cons_self _ _)
    have h2 := ih (fun x hx => h x (List.mem_cons_of_mem _ hx))
    simp [h1, h2]

theorem foldr_max_mem : ∀ (l : List Nat), l ≠ [] → l.foldr max 0 ∈ l := by
  intro l
  induction l with
  | nil => intro h; exact absurd rfl h
  | cons a l ih =>
    intro _
    cases l with
    | nil => simp
    | cons b l' =>
      have hmem := ih (by simp)
      rcases le_total ((b :: l').foldr max 0) a with h | h
      · have h1 : (a :: b :: l').foldr max 0 = a := by
          show max a ((b :: l').foldr max 0) = a
          exact Nat.max_eq_left h
        rw [h1]
        exact List.mem_cons_self _ _
      · have h1 : (a :: b :: l').foldr max 0 = (b :: l').foldr max 0 := by
          show max a ((b :: l').foldr max 0) = _
          exact Nat.max_eq_right h
        rw [h1]
        exact List.mem_cons_of_mem _ hmem

theorem alookup_map_const_val {κ β : Type} [DecidableEq κ] :
    ∀ (l : List κ) (c : β) (k : κ) {v : β},
      alookup (l.map (fun x => (x, c))) k = some v → v = c := by
  intro l c k
  induction l with
  | nil => intro v h; simp [alookup] at h
  | cons a l ih =>
    intro v h
    by_cases hk : k = a
    · simp [alookup, hk] at h
      exact h.symm
    · simp only [List.map_cons, alookup_cons, hk, if_false] at h
      exact ih h

theorem mem_varsList {P : Problem} {plot period : Nat} :
    (plot, period) ∈ varsList P ↔
      period ∈ periodsList P ∧ plot ∈ plotKeys P := by
  simp only [varsList, List.mem_flatMap, List.mem_map]
  constructor
  · rintro ⟨p, hp, q, hq, he⟩
    simp only [Prod.mk.injEq] at he
    obtain ⟨h1, h2⟩ := he
    subst h1; subst h2
    exact ⟨hp, hq⟩
  · rintro ⟨hp, hq⟩
    exact ⟨period, hp, plot, hq, rfl⟩

theorem optFlatMap_all_empty {α β : Type} :
    ∀ (l : List α) (f : α → Option (List β)),
      (∀ a ∈ l, f a = some []) → optFlatMap l f = some [] := by
  intro l
  induction l with
  | nil => intro f _; rfl
  | cons a l ih =>
    intro f h
    have ha := h a (List.mem_cons_self _ _)
    have hl := ih f (fun x hx => h x (List.mem_cons_of_mem _ hx))
    simp [optFlatMap, ha, hl]

/-- The all-no-crop assignment is feasible: `validate` accepts it with an
empty violation list (every `if crop:` test is falsy). -/
theorem validate_allNone (P : Problem) : validate P (allNoneSample P) = some [] := by
  have hbody : ∀ period ∈ periodsList P, ∀ plot ∈ plotKeys P,
      alookup (allNoneSample P) (plot, period) = some none := by
    intro period hp plot hq
    exact alookup_map_const (mem_varsList.mpr ⟨hp, hq⟩) none
  have h1 : validate1 P (allNoneSample P) = some [] := by
    apply optFlatMap_all_empty
    intro period hp
    apply optFlatMap_all_empty
    intro plot hq
    rw [validate1Body, hbody period hp plot hq]
    rfl
  have h2 : validate2 P (allNoneSample P) = some [] := by
    apply optFlatMap_all_empty
    intro period hp
    apply optFlatMap_all_empty
    intro plot hq
    rw [validate2Body, hbody period hp plot hq]
    rfl
  have h3 : validate3 P (allNoneSample P) = some [] := by
    apply optFlatMap_all_empty
    intro period hp
    apply optFlatMap_all_empty
    intro e he
    rw [validate3Body, hbody period hp e.1 (List.mem_map_of_mem Prod.fst he)]
    rfl
  rw [validate, h1, h2, h3]
  rfl

theorem energy_allNone {P : Problem} {M : CLDQM VarL CaseL}
    (hlin : ∀ e ∈ M.linear, LinEntryOk e)
    (hq : ∀ e ∈ M.quad, QuadEntryOk P e) :
    energy M (allNoneSample P) = 0 := by
  unfold energy
  rw [list_sum_zero, list_sum_zero]
  · simp
  · intro x hx
    obtain ⟨e, he, rfl⟩ := List.mem_map.mp hx
    obtain ⟨⟨v1, c1, v2, c2, hk⟩, -⟩ := hq e he
    rw [if_neg]
    rintro ⟨ha1, -⟩
    rw [hk] at ha1
    have := alookup_map_const_val (varsList P) (none : CaseL) v1 ha1
    exact Option.noConfusion this
  · intro x hx
    obtain ⟨e, he, rfl⟩ := List.mem_map.mp hx
    obtain ⟨⟨v, c, hvc⟩, -⟩ := hlin e he
    rw [if_neg]
    intro hcond
    rw [hvc] at hcond
    have := alookup_map_const_val (varsList P) (none : CaseL) v hcond
    exact Option.noConfusion this

theorem energy_no_active_nonpos {M : CLDQM VarL CaseL} {s : Sample}
    (hlin : ∀ e ∈ M.linear, LinEntryOk e)
    (hnone : ∀ e ∈ M.quad, ¬ entryActive s e.1) :
    energy M s ≤ 0 := by
  unfold energy
  have h1 : (M.linear.map
      (fun e => if alookup s e.1.1 = some e.1.2 then e.2 else 0)).sum ≤ 0 := by
    apply list_sum_nonpos
    intro x hx
    obtain ⟨e, he, rfl⟩ := List.mem_map.mp hx
    split
    · exact (hlin e he).2
    · omega
  have h2 : (M.quad.map (fun e => if entryActive s e.1 then e.2 else 0)).sum = 0 := by
    apply list_sum_zero
    intro x hx
    obtain ⟨e, he, rfl⟩ := List.mem_map.mp hx
    rw [if_neg (hnone e he)]
  omega

theorem energy_active_gap {P : Problem} {M : CLDQM VarL CaseL} {s : Sample}
    (hq : ∀ e ∈ M.quad, QuadEntryOk P e)
    (hact : ∃ e ∈ M.quad, entryActive s e.1) :
    (gammaP P : Int) ≤ energy M s - (M.linear.map
      (fun e => if alookup s e.1.1 = some e.1.2 then e.2 else 0)).sum := by
  obtain ⟨e0, he0, hact0⟩ := hact
  have hsum : (gammaP P : Int) ≤
      (M.quad.map (fun e => if entryActive s e.1 then e.2 else 0)).sum := by
    have hmem : (gammaP P : Int) ∈
        M.quad.map (fun e => if entryActive s e.1 then e.2 else 0) := by
      apply List.mem_map.mpr
      exact ⟨e0, he0, by rw [if_pos hact0, (hq e0 he0).2]⟩
    refine list_le_sum ?_ hmem
    intro x hx
    obtain ⟨e, he, rfl⟩ := List.mem_map.mp hx
    split
    · rw [(hq e he).2]
      positivity
    · omega
  unfold energy
  omega

/-- C2: `gamma` is `1 + max(grow_time)` over the crops (the maximum is
attained); the all-no-crop assignment is feasible with energy `0`, which is
at least the energy of any assignment that plants crops and activates no
penalty term (the linear biases only reward); and an assignment that
activates any stored penalty term has its energy exceed its planting-reward
part by at least `gamma`, hence by at least the strictly positive net margin
`gamma - max(grow_time) = 1`. -/
theorem c2_penalty_dominance (P : Problem) (M : CLDQM VarL CaseL)
    (hval : ValidProblem P) (hbuild : buildDqm P = some M) :
    gammaP P = 1 + maxGrow P ∧
      (∀ e ∈ P.crops, e.2.grow_time ≤ maxGrow P) ∧
      (∃ e ∈ P.crops, e.2.grow_time = maxGrow P) ∧
      validate P (allNoneSample P) = some [] ∧
      energy M (allNoneSample P) = 0 ∧
      (∀ s : Sample, (∃ v c, alookup s v = some (some c)) →
        (∀ e ∈ M.quad, ¬ entryActive s e.1) →
        energy M s ≤ energy M (allNoneSample P)) ∧
      (∀ s : Sample, (∃ e ∈ M.quad, entryActive s e.1) →
        (gammaP P : Int) - (maxGrow P : Int) ≤
          energy M s - (M.linear.map
            (fun e => if alookup s e.1.1 = some e.1.2 then e.2 else 0)).sum ∧
        0 < (gammaP P : Int) - (maxGrow P : Int)) := by
  obtain ⟨hlin, hq⟩ := buildDqm_inv hbuild
  have hzero := energy_allNone hlin hq
  refine ⟨rfl, ?_, ?_, validate_allNone P, hzero, ?_, ?_⟩
  · intro e he
    exact le_maxGrow he
  · have hne : P.crops.map (fun e => e.2.grow_time) ≠ [] := by
      intro hc
      exact hval.2.2.2.2.2 (List.map_eq_nil_iff.mp hc)
    obtain ⟨e, he, hge⟩ := List.mem_map.mp (foldr_max_mem _ hne)
    exact ⟨e, he, hge⟩
  · intro s _ hnone
    rw [hzero]
    exact energy_no_active_nonpos hlin hnone
  · intro s hact
    have hgap := energy_active_gap hq hact
    have hmg : (maxGrow P : Int) ≤ (gammaP P : Int) - 1 := by
      unfold gammaP
      push_cast
      omega
    constructor
    · omega
    · unfold gammaP
      push_cast
      omega

def exBuilt : CLDQM VarL CaseL :=
  ⟨[((1, 1), [none, some "x"]), ((1, 2), [none, some "x"])],
    [(((1, 1), some "x"), -1), (((1, 2), some "x"), -1)],
    [((((1, 1), some "x"), ((1, 2), some "x")), 2)]⟩

theorem c2_witness :
    energy exBuilt (allNoneSample exProblem) = 0 ∧
      (gammaP exProblem : Int) - (maxGrow exProblem : Int) ≤
        energy exBuilt exSelfSample - (exBuilt.linear.map
          (fun e => if alookup exSelfSample e.1.1 = some e.1.2 then e.2
            else 0)).sum := by
  have h := c2_penalty_dominance exProblem exBuilt (by decide) (by decide)
  refine ⟨h.2.2.2.2.1, ?_⟩
  exact (h.2.2.2.2.2.2 exSelfSample
    ⟨((((1, 1), some "x"), ((1, 2), some "x")), 2), by decide, by decide⟩).1

/-! ### The variable pass succeeds on validated problems -/

/-- Totality with an invariant through a fallible left fold. -/
theorem foldlM_total {α σ : Type} (I : σ → Prop) :
    ∀ (l : List α) (f : σ → α → Option σ),
      (∀ s a, a ∈ l → I s → ∃ s', f s a = some s' ∧ I s') →
      ∀ s, I s → ∃ s', l.foldlM f s = some s' ∧ I s' := by
  intro l
  induction l with
  | nil =>
    intro f _ s hI
    exact ⟨s, by simp [List.foldlM_nil], hI⟩
  | cons a l ih =>
    intro f hf s hI
    obtain ⟨s1, hs1, hI1⟩ := hf s a (List.mem_cons_self _ _) hI
    obtain ⟨s', hs', hI'⟩ :=
      ih f (fun s2 a' ha hI2 => hf s2 a' (List.mem_cons_of_mem _ ha) hI2) s1 hI1
    refine ⟨s', ?_, hI'⟩
    rw [List.foldlM_cons, hs1]
    exact hs'

theorem growTimeOf_total {P : Problem} {c : String} (h : c ∈ cropKeys P) :
    ∃ d, alookup P.crops c = some d ∧ growTimeOf P c = some d.grow_time := by
  obtain ⟨d, hd⟩ := alookup_isSome_of_mem h
  exact ⟨d, hd, by rw [growTimeOf, hd]; rfl⟩

theorem mem_caseDomain_of_periodCrops {P : Problem} {period : Nat} {c : String}
    (h : c ∈ periodCrops P period) : (some c : CaseL) ∈ caseDomain P period := by
  simp only [caseDomain, List.mem_cons, List.mem_map]
  exact Or.inr ⟨c, h, rfl⟩

theorem caseDomain_nodup {P : Problem} (hc : (cropKeys P).Nodup)
    (period : Nat) : (caseDomain P period).Nodup := by
  rw [caseDomain, List.nodup_cons]
  constructor
  · simp
  · exact (periodCrops_nodup hc period).map (fun a b => by simp)

theorem addLinearForVar_total (P : Problem) (plot period : Nat)
    (M : CLDQM VarL CaseL)
    (hdom : alookup M.labelCase (plot, period) = some (caseDomain P period)) :
    ∃ M', addLinearForVar P plot period M = some M' ∧
      M'.labelCase = M.labelCase ∧ M'.quad = M.quad := by
  have hstep : ∀ (N : CLDQM VarL CaseL) (c : String), c ∈ periodCrops P period →
      (N.labelCase = M.labelCase ∧ N.quad = M.quad) →
      ∃ N', (match growTimeOf P c with
        | none => none
        | some g => setLinearCase N (plot, period) (some c) (-(g : Int)))
          = some N' ∧ N'.labelCase = M.labelCase ∧ N'.quad = M.quad := by
    intro N c hc hI
    obtain ⟨d, -, hg⟩ := growTimeOf_total (periodCrops_subset_cropKeys hc)
    rw [hg]
    have hlook : alookup N.labelCase (plot, period) = some (caseDomain P period) :=
      hI.1 ▸ hdom
    unfold setLinearCase
    simp only [hlook]
    rw [if_pos (mem_caseDomain_of_periodCrops hc)]
    exact ⟨_, rfl, hI.1, hI.2⟩
  obtain ⟨M', hM', hI⟩ := foldlM_total
    (fun N => N.labelCase = M.labelCase ∧ N.quad = M.quad)
    (periodCrops P period) _ (fun N c hc hI => hstep N c hc hI) M ⟨rfl, rfl⟩
  exact ⟨M', hM', hI.1, hI.2⟩

theorem buildVars_plots (P : Problem) (period : Nat)
    (hpcnd : (periodCrops P period).Nodup) :
    ∀ (plots : List Nat) (M : CLDQM VarL CaseL), plots.Nodup →
      (∀ q ∈ plots, alookup M.labelCase (q, period) = none) →
      ∃ M', plots.foldlM (addVarStep P period) M = some M' ∧
        M'.labelCase = M.labelCase ++
          plots.map (fun q => ((q, period), caseDomain P period)) ∧
        M'.quad = M.quad := by
  intro plots
  induction plots with
  | nil =>
    intro M _ _
    exact ⟨M, by simp [List.foldlM_nil], by simp, rfl⟩
  | cons q rest ih =>
    intro M hnd hnone
    obtain ⟨hq_rest, hnd_rest⟩ := List.nodup_cons.mp hnd
    have hq := hnone q (List.mem_cons_self _ _)
    have hcd : (caseDomain P period).Nodup := by
      rw [caseDomain, List.nodup_cons]
      exact ⟨by simp, hpcnd.map (fun a b => by simp)⟩
    have hadd : addVariable M (caseDomain P period) (q, period) =
        ({ M with labelCase :=
          M.labelCase ++ [((q, period), caseDomain P period)] }, none) := by
      rw [addVariable]
      simp [hq, hcd]
    have hdom : alookup (M.labelCase ++
        [((q, period), caseDomain P period)]) (q, period) =
          some (caseDomain P period) := by
      rw [alookup_append, hq]
      simp [alookup]
    obtain ⟨Mb, hMb, hMbl, hMbq⟩ := addLinearForVar_total P q period
      { M with labelCase := M.labelCase ++ [((q, period), caseDomain P period)] }
      hdom
    have hnone' : ∀ q' ∈ rest, alookup Mb.labelCase (q', period) = none := by
      intro q' hq'
      rw [hMbl]
      show alookup (M.labelCase ++ [((q, period), caseDomain P period)])
        (q', period) = none
      rw [alookup_append, hnone q' (List.mem_cons_of_mem _ hq')]
      have hqq : q' ≠ q := fun hc => hq_rest (hc ▸ hq')
      simp [alookup, hqq]
    obtain ⟨M', hM', hM'l, hM'q⟩ := ih Mb hnd_rest hnone'
    refine ⟨M', ?_, ?_, ?_⟩
    · rw [List.foldlM_cons]
      have hstep : addVarStep P period M q = some Mb := by
        rw [addVarStep, hadd]
        exact hMb
      rw [hstep]
      exact hM'
    · rw [hM'l, hMbl]
      simp
    · rw [hM'q, hMbq]

theorem buildVars_periods (P : Problem) (hplots : (plotKeys P).Nodup)
    (hcrops : (cropKeys P).Nodup) :
    ∀ (periods : List Nat) (M : CLDQM VarL CaseL), periods.Nodup →
      (∀ p ∈ periods, ∀ q, alookup M.labelCase (q, p) = none) →
      ∃ M', periods.foldlM (fun M period =>
          (plotKeys P).foldlM (addVarStep P period) M) M = some M' ∧
        M'.labelCase = M.labelCase ++ periods.flatMap
          (fun p => (plotKeys P).map (fun q => ((q, p), caseDomain P p))) ∧
        M'.quad = M.quad := by
  intro periods
  induction periods with
  | nil =>
    intro M _ _
    exact ⟨M, by simp [List.foldlM_nil], by simp, rfl⟩
  | cons p rest ih =>
    intro M hnd hnone
    obtain ⟨hp_rest, hnd_rest⟩ := List.nodup_cons.mp hnd
    obtain ⟨M1, hM1, hM1l, hM1q⟩ := buildVars_plots P p
      (periodCrops_nodup hcrops p) (plotKeys P) M hplots
      (fun q _ => hnone p (List.mem_cons_self _ _) q)
    have hnone' : ∀ p' ∈ rest, ∀ q, alookup M1.labelCase (q, p') = none := by
      intro p' hp' q
      rw [hM1l, alookup_append, hnone p' (List.mem_cons_of_mem _ hp') q]
      apply alookup_eq_none_of_not_mem
      intro hc
      simp only [List.map_map] at hc
      obtain ⟨q', -, he⟩ := List.mem_map.mp hc
      simp only [Function.comp, Prod.mk.injEq] at he
      exact hp_rest (he.2 ▸ hp')
    obtain ⟨M', hM', hM'l, hM'q⟩ := ih M1 hnd_rest hnone'
    refine ⟨M', ?_, ?_, ?_⟩
    · rw [List.foldlM_cons, hM1]
      exact hM'
    · rw [hM'l, hM1l]
      simp
    · rw [hM'q, hM1q]

/-- The label/domain table produced by the variable pass. -/
def varsSpec (P : Problem) : List (VarL × List CaseL) :=
  (periodsList P).flatMap
    (fun p => (plotKeys P).map (fun q => ((q, p), caseDomain P p)))

theorem periodsList_nodup (P : Problem) : (periodsList P).Nodup :=
  (List.nodup_range _).map (fun a b h => by omega)

theorem buildVars_eq (P : Problem) (hval : ValidProblem P) :
    ∃ M, buildVars P = some M ∧ M.labelCase = varsSpec P ∧ M.quad = [] := by
  obtain ⟨M, hM, hMl, hMq⟩ := buildVars_periods P hval.2.1 hval.2.2.2.1
    (periodsList P) emptyDQM (periodsList_nodup P)
    (fun p _ q => by simp [emptyDQM])
  exact ⟨M, hM, by simpa [varsSpec, emptyDQM] using hMl, hMq⟩

/-! ### Counting the variables and cases -/

theorem list_sum_const_nat {α : Type} :
    ∀ (l : List α) (c : Nat), (l.map (fun _ => c)).sum = l.length * c := by
  intro l c
  induction l with
  | nil => simp
  | cons a l ih =>
    simp only [List.map_cons, List.sum_cons, List.length_cons, ih]
    ring

theorem length_flatMap_eq {α β : Type} :
    ∀ (l : List α) (f : α → List β),
      (l.flatMap f).length = (l.map (fun a => (f a).length)).sum := by
  intro l f
  induction l with
  | nil => simp
  | cons a l ih => simp [List.flatMap_cons, ih]

theorem map_flatMap_eq {α β γ : Type} :
    ∀ (l : List α) (f : α → List β) (g : β → γ),
      (l.flatMap f).map g = l.flatMap (fun a => (f a).map g) := by
  intro l f g
  induction l with
  | nil => simp
  | cons a l ih => simp [List.flatMap_cons, ih]

theorem sum_flatMap_nat {α : Type} :
    ∀ (l : List α) (f : α → List Nat),
      (l.flatMap f).sum = (l.map (fun a => (f a).sum)).sum := by
  intro l f
  induction l with
  | nil => simp
  | cons a l ih => simp [List.flatMap_cons, ih]

theorem pairs_flatMap_nodup :
    ∀ (periods plots : List Nat), periods.Nodup → plots.Nodup →
      (periods.flatMap (fun p => plots.map (fun q => (q, p)))).Nodup := by
  intro periods plots
  induction periods with
  | nil => intro _ _; simp
  | cons p rest ih =>
    intro hnd hp
    obtain ⟨hpr, hndr⟩ := List.nodup_cons.mp hnd
    rw [List.flatMap_cons]
    refine List.Nodup.append ?_ (ih hndr hp) ?_
    · exact hp.map (fun a b h => by simpa using congrArg Prod.fst h)
    · intro x hx1 hx2
      obtain ⟨q, -, rfl⟩ := List.mem_map.mp hx1
      obtain ⟨p', hp', hq'⟩ := List.mem_flatMap.mp hx2
      obtain ⟨q', -, he⟩ := List.mem_map.mp hq'
      simp only [Prod.mk.injEq] at he
      exact hpr (he.2 ▸ hp')

theorem varsSpec_keys (P : Problem) :
    (varsSpec P).map Prod.fst = (periodsList P).flatMap
      (fun p => (plotKeys P).map (fun q => (q, p))) := by
  rw [varsSpec, map_flatMap_eq]
  congr 1
  funext p
  rw [List.map_map]
  have hcomp : (Prod.fst ∘ fun q : Nat => ((q, p), caseDomain P p)) =
      (fun q : Nat => (q, p)) := rfl
  rw [hcomp]

theorem varsSpec_lookup (P : Problem) (hplots : (plotKeys P).Nodup)
    {plot period : Nat} (hq : plot ∈ plotKeys P) (hp : period ∈ periodsList P) :
    alookup (varsSpec P) (plot, period) = some (caseDomain P period) := by
  apply alookup_of_mem_of_nodup
  · rw [varsSpec_keys]
    exact pairs_flatMap_nodup (periodsList P) (plotKeys P)
      (periodsList_nodup P) hplots
  · exact List.mem_flatMap.mpr ⟨period, hp, List.mem_map.mpr ⟨plot, hq, rfl⟩⟩

/-- C4: on a validated problem the variable pass succeeds; the model then
has exactly `time_units * |plots|` variables, the total number of cases is
`Σ_p |plots| * (1 + |period_crops[p]|)`, each variable `(plot, period)` has
case domain `{no-crop} ∪ period_crops[period]`, and `period_crops[p]` is
exactly the set of crops whose planting window contains `p`.  The three
quadratic passes add no variables: any completed `build_dqm` has the same
variable/case table. -/
theorem c4_variable_case_counts (P : Problem) (hval : ValidProblem P) :
    ∃ M, buildVars P = some M ∧
      M.labelCase.length = P.time_units * (plotKeys P).length ∧
      (M.labelCase.map (fun e => e.2.length)).sum =
        ((periodsList P).map
          (fun p => (plotKeys P).length * (1 + (periodCrops P p).length))).sum ∧
      (∀ plot ∈ plotKeys P, ∀ period ∈ periodsList P,
        alookup M.labelCase (plot, period) = some (caseDomain P period)) ∧
      (∀ period c, c ∈ periodCrops P period ↔
        ∃ d, (c, d) ∈ P.crops ∧ d.planting.1 ≤ period ∧ period ≤ d.planting.2) ∧
      (∀ M', buildDqm P = some M' → M'.labelCase = M.labelCase) := by
  obtain ⟨M, hM, hMl, -⟩ := buildVars_eq P hval
  refine ⟨M, hM, ?_, ?_, ?_, ?_, ?_⟩
  · rw [hMl, varsSpec, length_flatMap_eq]
    have : ((periodsList P).map
        (fun p => ((plotKeys P).map (fun q => ((q, p), caseDomain P p))).length))
        = (periodsList P).map (fun _ => (plotKeys P).length) := by
      simp
    rw [this, list_sum_const_nat]
    have hlen : (periodsList P).length = P.time_units := by simp [periodsList]
    rw [hlen]
  · rw [hMl, varsSpec, map_flatMap_eq, sum_flatMap_nat]
    congr 1
    apply List.map_congr_left
    intro p _
    rw [List.map_map]
    have hcomp : ((fun (e : VarL × List CaseL) => e.2.length) ∘
        fun q : Nat => ((q, p), caseDomain P p)) =
        (fun _ : Nat => (caseDomain P p).length) := rfl
    rw [hcomp, list_sum_const_nat]
    have hdl : (caseDomain P p).length = 1 + (periodCrops P p).length := by
      simp [caseDomain]
      omega
    rw [hdl]
  · intro plot hq period hp
    rw [hMl]
    exact varsSpec_lookup P hval.2.1 hq hp
  · intro period c
    exact mem_periodCrops
  · intro M' hM'
    unfold buildDqm at hM'
    rw [hM] at hM'
    cases h1 : applyQuad P M (pass1Terms P) with
    | none => simp only [h1] at hM'; exact Option.noConfusion hM'
    | some M2 =>
      simp only [h1] at hM'
      cases h2 : applyQuad P M2 (pass2Terms P) with
      | none => simp only [h2] at hM'; exact Option.noConfusion hM'
      | some M3 =>
        simp only [h2] at hM'
        have hq1 : ∀ e ∈ M.quad, QuadEntryOk P e := by
          obtain ⟨-, hq⟩ := buildVars_inv hM
          rw [hq]
          intro e he
          simp at he
        have e1 := applyQuad_inv h1 hq1
        have e2 := applyQuad_inv h2 e1.2.2
        have e3 := applyQuad_inv hM' e2.2.2
        rw [e3.1, e2.1, e1.1]

theorem c4_witness :
    ∃ M, buildVars exProblem = some M ∧
      M.labelCase.length = exProblem.time_units * (plotKeys exProblem).length ∧
      (M.labelCase.map (fun e => e.2.length)).sum =
        ((periodsList exProblem).map
          (fun p => (plotKeys exProblem).length *
            (1 + (periodCrops exProblem p).length))).sum ∧
      (∀ plot ∈ plotKeys exProblem, ∀ period ∈ periodsList exProblem,
        alookup M.labelCase (plot, period) =
          some (caseDomain exProblem period)) ∧
      (∀ period c, c ∈ periodCrops exProblem period ↔
        ∃ d, (c, d) ∈ exProblem.crops ∧ d.planting.1 ≤ period ∧
          period ≤ d.planting.2) ∧
      (∀ M', buildDqm exProblem = some M' → M'.labelCase = M.labelCase) :=
  c4_variable_case_counts exProblem (by decide)

/-! ### Totality and inversion for the validator loops -/

theorem optFlatMap_total {α β : Type} :
    ∀ (l : List α) (f : α → Option (List β)),
      (∀ a ∈ l, ∃ o, f a = some o) → ∃ out, optFlatMap l f = some out := by
  intro l
  induction l with
  | nil => intro f _; exact ⟨[], rfl⟩
  | cons a l ih =>
    intro f h
    obtain ⟨o, ho⟩ := h a (List.mem_cons_self _ _)
    obtain ⟨rest, hrest⟩ := ih f (fun x hx => h x (List.mem_cons_of_mem _ hx))
    exact ⟨o ++ rest, by simp [optFlatMap, ho, hrest]⟩

theorem optFlatMap_sub {α β : Type} :
    ∀ {l : List α} {f : α → Option (List β)} {out : List β},
      optFlatMap l f = some out → ∀ a ∈ l, ∃ o, f a = some o := by
  intro l
  induction l with
  | nil => intro f out _ a ha; simp at ha
  | cons b l ih =>
    intro f out h a ha
    rw [optFlatMap] at h
    cases hb : f b with
    | none => rw [hb] at h; simp at h
    | some ob =>
      rw [hb] at h
      cases hrest : optFlatMap l f with
      | none => rw [hrest] at h; simp at h
      | some orest =>
        rcases List.mem_cons.mp ha with rfl | ha'
        · exact ⟨ob, hb⟩
        · exact ih hrest a ha'

theorem optFlatMap_mem_inv {α β : Type} :
    ∀ {l : List α} {f : α → Option (List β)} {out : List β},
      optFlatMap l f = some out → ∀ {x : β}, x ∈ out →
        ∃ a ∈ l, ∃ o, f a = some o ∧ x ∈ o := by
  intro l
  induction l with
  | nil =>
    intro f out h x hx
    rw [optFlatMap] at h
    cases h
    simp at hx
  | cons b l ih =>
    intro f out h x hx
    rw [optFlatMap] at h
    cases hb : f b with
    | none => rw [hb] at h; simp at h
    | some ob =>
      rw [hb] at h
      cases hrest : optFlatMap l f with
      | none => rw [hrest] at h; simp at h
      | some orest =>
        rw [hrest] at h
        cases h
        rcases List.mem_append.mp hx with hx' | hx'
        · exact ⟨b, List.mem_cons_self _ _, ob, hb, hx'⟩
        · obtain ⟨a, ha, o, ho, hxo⟩ := ih hrest hx'
          exact ⟨a, List.mem_cons_of_mem _ ha, o, ho, hxo⟩

theorem optFlatMap_mem_intro {α β : Type} :
    ∀ {l : List α} {f : α → Option (List β)} {out : List β},
      optFlatMap l f = some out → ∀ {a : α} {o : List β} {x : β},
        a ∈ l → f a = some o → x ∈ o → x ∈ out := by
  intro l
  induction l with
  | nil => intro f out _ a o x ha; simp at ha
  | cons b l ih =>
    intro f out h a o x ha hfa hx
    rw [optFlatMap] at h
    cases hb : f b with
    | none => rw [hb] at h; simp at h
    | some ob =>
      rw [hb] at h
      cases hrest : optFlatMap l f with
      | none => rw [hrest] at h; simp at h
      | some orest =>
        rw [hrest] at h
        cases h
        rcases List.mem_cons.mp ha with rfl | ha'
        · rw [hfa] at hb
          cases hb
          exact List.mem_append.mpr (Or.inl hx)
        · exact List.mem_append.mpr (Or.inr (ih hrest ha' hfa hx))

/-- An admissible case value for C9: the variable is present and holds
either the no-crop value or a crop identifier of the problem. -/
def goodVal (P : Problem) : Option CaseL → Prop
  | none => False
  | some none => True
  | some (some c) => c ∈ cropKeys P

instance (P : Problem) (o : Option CaseL) : Decidable (goodVal P o) := by
  rcases o with - | (- | c)
  · exact isFalse (fun h => h)
  · exact isTrue trivial
  · show Decidable (c ∈ cropKeys P)
    infer_instance

/-- A full label-space assignment: every variable label `(plot, period)` is
mapped, to the no-crop value or a crop id of the problem. -/
def CoversKeys (P : Problem) (s : Sample) : Prop :=
  ∀ plot ∈ plotKeys P, ∀ period ∈ periodsList P,
    goodVal P (alookup s (plot, period))

instance (P : Problem) (s : Sample) : Decidable (CoversKeys P s) := by
  unfold CoversKeys
  infer_instance

/-- An in-domain case value: no-crop or a crop actually plantable in the
variable's period (i.e. a case of the variable's domain). -/
def goodDomVal (P : Problem) (period : Nat) : Option CaseL → Prop
  | none => False
  | some none => True
  | some (some c) => c ∈ periodCrops P period

instance (P : Problem) (period : Nat) (o : Option CaseL) :
    Decidable (goodDomVal P period o) := by
  rcases o with - | (- | c)
  · exact isFalse (fun h => h)
  · exact isTrue trivial
  · show Decidable (c ∈ periodCrops P period)
    infer_instance

/-- A full label-space assignment within the case domains of the built
model. -/
def CoversDomain (P : Problem) (s : Sample) : Prop :=
  ∀ plot ∈ plotKeys P, ∀ period ∈ periodsList P,
    goodDomVal P period (alookup s (plot, period))

instance (P : Problem) (s : Sample) : Decidable (CoversDomain P s) := by
  unfold CoversDomain
  infer_instance

theorem coversKeys_of_domain {P : Problem} {s : Sample}
    (h : CoversDomain P s) : CoversKeys P s := by
  intro plot hq period hp
  have h0 := h plot hq period hp
  cases hv : alookup s (plot, period) with
  | none => rw [hv] at h0; exact h0
  | some v =>
    rw [hv] at h0
    cases v with
    | none => trivial
    | some c =>
      show c ∈ cropKeys P
      exact periodCrops_subset_cropKeys h0

theorem rolloverN_mem_periodsList {P : Problem} (hT : 1 ≤ P.time_units)
    (x : Int) : rolloverN P.time_units x ∈ periodsList P := by
  have hs := rolloverN_spec P.time_units hT x
  exact mem_periodsList.mpr ⟨hs.1, hs.2.1⟩

theorem goodVal_ne_none {P : Problem} {o : Option CaseL}
    (h : goodVal P o) : o ≠ none := by
  cases o with
  | none => exact absurd h (fun h => h)
  | some v => exact fun hc => Option.noConfusion hc

theorem checkOcc1_total (var : VarL) (c : String) (g : Nat) (rvar : VarL)
    {o : Option CaseL} (h : o ≠ none) :
    ∃ out, checkOcc1 var c g rvar o = some out := by
  rcases o with - | (- | rc)
  · exact absurd rfl h
  · exact ⟨[], rfl⟩
  · by_cases hrc : rc = ""
    · exact ⟨[], by simp [checkOcc1, hrc]⟩
    · exact ⟨[.c1 var c rvar rc g], by simp [checkOcc1, hrc]⟩

theorem checkOcc2_total (P : Problem) (var : VarL) (c f : String) (rvar : VarL)
    {o : Option CaseL} (h : o ≠ none) :
    ∃ out, checkOcc2 P var c f rvar o = some out := by
  rcases o with - | (- | rc)
  · exact absurd rfl h
  · exact ⟨[], rfl⟩
  · by_cases hrc : rc ∈ (familyMembers P f).filter (fun x => x ≠ c)
    · exact ⟨[.c2 var c rvar rc], by simp only [checkOcc2]; rw [if_pos hrc]⟩
    · exact ⟨[], by simp only [checkOcc2]; rw [if_neg hrc]⟩

theorem checkOcc3_total (P : Problem) (var : VarL) (c f : String) (var2 : VarL)
    {o : Option CaseL} (h : o ≠ none) :
    ∃ out, checkOcc3 P var c f var2 o = some out := by
  rcases o with - | (- | c2)
  · exact absurd rfl h
  · exact ⟨[], rfl⟩
  · by_cases hc2 : c2 ∈ familyMembers P f
    · exact ⟨[.c3 var c var2 c2], by simp only [checkOcc3]; rw [if_pos hc2]⟩
    · exact ⟨[], by simp only [checkOcc3]; rw [if_neg hc2]⟩

theorem validate1Body_total {P : Problem} {s : Sample}
    (hT : 1 ≤ P.time_units) (hcov : CoversKeys P s)
    {period plot : Nat} (hp : period ∈ periodsList P) (hq : plot ∈ plotKeys P) :
    ∃ o, validate1Body P s period plot = some o := by
  have h0 := hcov plot hq period hp
  unfold validate1Body
  cases hv : alookup s (plot, period) with
  | none => rw [hv] at h0; exact absurd h0 (fun h => h)
  | some v =>
    rw [hv] at h0
    cases v with
    | none => exact ⟨[], rfl⟩
    | some c =>
      by_cases hce : c = ""
      · exact ⟨[], by simp [checkPlanted1, hce]⟩
      · simp only [checkPlanted1]
        rw [if_neg hce]
        obtain ⟨d, -, hg⟩ := growTimeOf_total h0
        rw [hg]
        simp only [withGrow1]
        apply optFlatMap_total
        intro r hr
        show ∃ out, checkOcc1 (plot, period) c d.grow_time
          (plot, rolloverN P.time_units ((period : Int) + r))
          (alookup s (plot, rolloverN P.time_units ((period : Int) + r))) =
            some out
        apply checkOcc1_total
        exact goodVal_ne_none
          (hcov plot hq _ (rolloverN_mem_periodsList hT ((period : Int) + r)))

theorem validate2Body_total {P : Problem} {s : Sample}
    (hT : 1 ≤ P.time_units) (hcov : CoversKeys P s)
    {period plot : Nat} (hp : period ∈ periodsList P) (hq : plot ∈ plotKeys P) :
    ∃ o, validate2Body P s period plot = some o := by
  have h0 := hcov plot hq period hp
  unfold validate2Body
  cases hv : alookup s (plot, period) with
  | none => rw [hv] at h0; exact absurd h0 (fun h => h)
  | some v =>
    rw [hv] at h0
    cases v with
    | none => exact ⟨[], rfl⟩
    | some c =>
      by_cases hce : c = ""
      · exact ⟨[], by simp [checkPlanted2, hce]⟩
      · simp only [checkPlanted2]
        rw [if_neg hce]
        obtain ⟨d, hd⟩ := alookup_isSome_of_mem h0
        rw [hd]
        simp only [withCrop2]
        apply optFlatMap_total
        intro r hr
        show ∃ out, checkOcc2 P (plot, period) c d.family
          (plot, rolloverN P.time_units ((period : Int) + r))
          (alookup s (plot, rolloverN P.time_units ((period : Int) + r))) =
            some out
        apply checkOcc2_total
        exact goodVal_ne_none
          (hcov plot hq _ (rolloverN_mem_periodsList hT ((period : Int) + r)))

theorem validate3Body_total {P : Problem} {s : Sample}
    (hval : ValidProblem P) (hcov : CoversKeys P s)
    {period : Nat} {e : Nat × List Nat}
    (hp : period ∈ periodsList P) (he : e ∈ P.plot_adjacency) :
    ∃ o, validate3Body P s period e = some o := by
  have hT : 1 ≤ P.time_units := hval.1
  have hq : e.1 ∈ plotKeys P := List.mem_map_of_mem Prod.fst he
  have h0 := hcov e.1 hq period hp
  unfold validate3Body
  cases hv : alookup s (e.1, period) with
  | none => rw [hv] at h0; exact absurd h0 (fun h => h)
  | some v =>
    rw [hv] at h0
    cases v with
    | none => exact ⟨[], rfl⟩
    | some c =>
      by_cases hce : c = ""
      · exact ⟨[], by simp [checkPlanted3, hce]⟩
      · simp only [checkPlanted3]
        rw [if_neg hce]
        obtain ⟨d, hd⟩ := alookup_isSome_of_mem h0
        rw [hd]
        simp only [withCrop3]
        apply optFlatMap_total
        intro r hr
        apply optFlatMap_total
        intro neighbor hn
        have hnq : neighbor ∈ plotKeys P := (hval.2.2.1 e he neighbor hn).1
        show ∃ out, checkOcc3 P (e.1, period) c d.family
          (neighbor, rolloverN P.time_units ((period : Int) + r))
          (alookup s (neighbor, rolloverN P.time_units ((period : Int) + r))) =
            some out
        apply checkOcc3_total
        exact goodVal_ne_none
          (hcov neighbor hnq _ (rolloverN_mem_periodsList hT ((period : Int) + r)))

/-- C9: on a validated problem, for every full assignment mapping each
variable label to a crop id of the problem or the no-crop value, `validate`
raises nothing: it returns an (ordered) list of violation records, and
infeasibility is reported only as a non-empty returned list. -/
theorem c9_validate_never_raises (P : Problem) (s : Sample)
    (hval : ValidProblem P) (hcov : CoversKeys P s) :
    ∃ errs, validate P s = some errs ∧
      ∀ errs', validate P s = some errs' → errs' = errs := by
  have hT : 1 ≤ P.time_units := hval.1
  have h1 : ∃ e1, validate1 P s = some e1 := by
    apply optFlatMap_total
    intro period hp
    apply optFlatMap_total
    intro plot hq
    exact validate1Body_total hT hcov hp hq
  have h2 : ∃ e2, validate2 P s = some e2 := by
    apply optFlatMap_total
    intro period hp
    apply optFlatMap_total
    intro plot hq
    exact validate2Body_total hT hcov hp hq
  have h3 : ∃ e3, validate3 P s = some e3 := by
    apply optFlatMap_total
    intro period hp
    apply optFlatMap_total
    intro e he
    exact validate3Body_total hval hcov hp he
  obtain ⟨e1, he1⟩ := h1
  obtain ⟨e2, he2⟩ := h2
  obtain ⟨e3, he3⟩ := h3
  refine ⟨e1 ++ e2 ++ e3, ?_, ?_⟩
  · rw [validate, he1, he2, he3]
  · intro errs' h'
    rw [validate, he1, he2, he3] at h'
    cases h'
    rfl

theorem c9_witness : (validate exProblem exSelfSample).isSome = true := by
  obtain ⟨errs, herrs, -⟩ :=
    c9_validate_never_raises exProblem exSelfSample (by decide) (by decide)
  rw [herrs]
  rfl

/-! ### Inversion of the validator output -/

theorem validate_decomp {P : Problem} {s : Sample} {errs : List Violation}
    (h : validate P s = some errs) :
    ∃ e1 e2 e3, validate1 P s = some e1 ∧ validate2 P s = some e2 ∧
      validate3 P s = some e3 ∧ errs = e1 ++ e2 ++ e3 := by
  rw [validate] at h
  cases h1 : validate1 P s with
  | none =>
    simp only [h1] at h
    exact Option.noConfusion h
  | some e1 =>
    simp only [h1] at h
    cases h2 : validate2 P s with
    | none =>
      simp only [h2] at h
      exact Option.noConfusion h
    | some e2 =>
      simp only [h2] at h
      cases h3 : validate3 P s with
      | none =>
        simp only [h3] at h
        exact Option.noConfusion h
      | some e3 =>
        simp only [h3] at h
        cases h
        exact ⟨e1, e2, e3, rfl, rfl, rfl, rfl⟩

theorem validate1_mem {P : Problem} {s : Sample} {e1 : List Violation}
    (h : validate1 P s = some e1) {v : Violation} (hv : v ∈ e1) :
    ∃ period ∈ periodsList P, ∃ plot ∈ plotKeys P, ∃ c g rc r,
      alookup s (plot, period) = some (some c) ∧ c ≠ "" ∧
      growTimeOf P c = some g ∧ 1 ≤ r ∧ r < g ∧
      alookup s (plot, rolloverN P.time_units ((period : Int) + r)) =
        some (some rc) ∧ rc ≠ "" ∧
      v = .c1 (plot, period) c
        (plot, rolloverN P.time_units ((period : Int) + r)) rc g := by
  obtain ⟨period, hp, operiod, hoper, hvper⟩ := optFlatMap_mem_inv h hv
  obtain ⟨plot, hq, obody, hobody, hvbody⟩ := optFlatMap_mem_inv hoper hvper
  refine ⟨period, hp, plot, hq, ?_⟩
  rw [validate1Body] at hobody
  cases hv1 : alookup s (plot, period) with
  | none => rw [hv1] at hobody; simp [checkPlanted1] at hobody
  | some v1 =>
    rw [hv1] at hobody
    cases v1 with
    | none =>
      simp only [checkPlanted1] at hobody
      cases hobody
      simp at hvbody
    | some c =>
      simp only [checkPlanted1] at hobody
      by_cases hce : c = ""
      · rw [if_pos hce] at hobody
        cases hobody
        simp at hvbody
      · rw [if_neg hce] at hobody
        cases hg : growTimeOf P c with
        | none => rw [hg] at hobody; simp [withGrow1] at hobody
        | some g =>
          rw [hg] at hobody
          simp only [withGrow1] at hobody
          obtain ⟨r, hr, oin, hoin, hvin⟩ := optFlatMap_mem_inv hobody hvbody
          obtain ⟨hr1, hr2⟩ := mem_rangeFrom.mp hr
          have hoin' : checkOcc1 (plot, period) c g
              (plot, rolloverN P.time_units ((period : Int) + r))
              (alookup s (plot, rolloverN P.time_units ((period : Int) + r)))
              = some oin := hoin
          cases hv2 : alookup s
              (plot, rolloverN P.time_units ((period : Int) + r)) with
          | none => rw [hv2] at hoin'; simp [checkOcc1] at hoin'
          | some v2 =>
            rw [hv2] at hoin'
            cases v2 with
            | none =>
              simp only [checkOcc1] at hoin'
              cases hoin'
              simp at hvin
            | some rc =>
              simp only [checkOcc1] at hoin'
              by_cases hrc : rc = ""
              · rw [if_pos hrc] at hoin'
                cases hoin'
                simp at hvin
              · rw [if_neg hrc] at hoin'
                cases hoin'
                simp only [List.mem_singleton] at hvin
                exact ⟨c, g, rc, r, rfl, hce, hg, hr1, hr2, hv2, hrc, hvin⟩

theorem validate2_mem {P : Problem} {s : Sample} {e2 : List Violation}
    (h : validate2 P s = some e2) {v : Violation} (hv : v ∈ e2) :
    ∃ period ∈ periodsList P, ∃ plot ∈ plotKeys P, ∃ c d rc r,
      alookup s (plot, period) = some (some c) ∧ c ≠ "" ∧
      alookup P.crops c = some d ∧ 1 ≤ r ∧ r ≤ d.grow_time ∧
      alookup s (plot, rolloverN P.time_units ((period : Int) + r)) =
        some (some rc) ∧
      rc ∈ familyMembers P d.family ∧ rc ≠ c ∧
      v = .c2 (plot, period) c
        (plot, rolloverN P.time_units ((period : Int) + r)) rc := by
  obtain ⟨period, hp, operiod, hoper, hvper⟩ := optFlatMap_mem_inv h hv
  obtain ⟨plot, hq, obody, hobody, hvbody⟩ := optFlatMap_mem_inv hoper hvper
  refine ⟨period, hp, plot, hq, ?_⟩
  rw [validate2Body] at hobody
  cases hv1 : alookup s (plot, period) with
  | none => rw [hv1] at hobody; simp [checkPlanted2] at hobody
  | some v1 =>
    rw [hv1] at hobody
    cases v1 with
    | none =>
      simp only [checkPlanted2] at hobody
      cases hobody
      simp at hvbody
    | some c =>
      simp only [checkPlanted2] at hobody
      by_cases hce : c = ""
      · rw [if_pos hce] at hobody
        cases hobody
        simp at hvbody
      · rw [if_neg hce] at hobody
        cases hd : alookup P.crops c with
        | none => rw [hd] at hobody; simp [withCrop2] at hobody
        | some d =>
          rw [hd] at hobody
          simp only [withCrop2] at hobody
          obtain ⟨r, hr, oin, hoin, hvin⟩ := optFlatMap_mem_inv hobody hvbody
          obtain ⟨hr1, hr2⟩ := mem_rangeFrom.mp hr
          have hoin' : checkOcc2 P (plot, period) c d.family
              (plot, rolloverN P.time_units ((period : Int) + r))
              (alookup s (plot, rolloverN P.time_units ((period : Int) + r)))
              = some oin := hoin
          cases hv2 : alookup s
              (plot, rolloverN P.time_units ((period : Int) + r)) with
          | none => rw [hv2] at hoin'; simp [checkOcc2] at hoin'
          | some v2 =>
            rw [hv2] at hoin'
            cases v2 with
            | none =>
              simp only [checkOcc2] at hoin'
              cases hoin'
              simp at hvin
            | some rc =>
              simp only [checkOcc2] at hoin'
              by_cases hrc : rc ∈ (familyMembers P d.family).filter
                  (fun x => x ≠ c)
              · rw [if_pos hrc] at hoin'
                cases hoin'
                simp only [List.mem_singleton] at hvin
                obtain ⟨hfam, hrcne⟩ := List.mem_filter.mp hrc
                exact ⟨c, d, rc, r, rfl, hce, hd, hr1, by omega, hv2, hfam,
                  by simpa using hrcne, hvin⟩
              · rw [if_neg hrc] at hoin'
                cases hoin'
                simp at hvin

theorem validate3_mem {P : Problem} {s : Sample} {e3 : List Violation}
    (h : validate3 P s = some e3) {v : Violation} (hv : v ∈ e3) :
    ∃ period ∈ periodsList P, ∃ e ∈ P.plot_adjacency, ∃ c d c2 r neighbor,
      alookup s (e.1, period) = some (some c) ∧ c ≠ "" ∧
      alookup P.crops c = some d ∧ r < d.grow_time ∧ neighbor ∈ e.2 ∧
      alookup s (neighbor, rolloverN P.time_units ((period : Int) + r)) =
        some (some c2) ∧
      c2 ∈ familyMembers P d.family ∧
      v = .c3 (e.1, period) c
        (neighbor, rolloverN P.time_units ((period : Int) + r)) c2 := by
  obtain ⟨period, hp, operiod, hoper, hvper⟩ := optFlatMap_mem_inv h hv
  obtain ⟨e, he, obody, hobody, hvbody⟩ := optFlatMap_mem_inv hoper hvper
  refine ⟨period, hp, e, he, ?_⟩
  rw [validate3Body] at hobody
  cases hv1 : alookup s (e.1, period) with
  | none => rw [hv1] at hobody; simp [checkPlanted3] at hobody
  | some v1 =>
    rw [hv1] at hobody
    cases v1 with
    | none =>
      simp only [checkPlanted3] at hobody
      cases hobody
      simp at hvbody
    | some c =>
      simp only [checkPlanted3] at hobody
      by_cases hce : c = ""
      · rw [if_pos hce] at hobody
        cases hobody
        simp at hvbody
      · rw [if_neg hce] at hobody
        cases hd : alookup P.crops c with
        | none => rw [hd] at hobody; simp [withCrop3] at hobody
        | some d =>
          rw [hd] at hobody
          simp only [withCrop3] at hobody
          obtain ⟨r, hr, oin, hoin, hvin⟩ := optFlatMap_mem_inv hobody hvbody
          obtain ⟨-, hr2⟩ := mem_rangeFrom.mp hr
          have hoin' : optFlatMap e.2 (fun neighbor =>
              checkOcc3 P (e.1, period) c d.family
                (neighbor, rolloverN P.time_units ((period : Int) + r))
                (alookup s (neighbor, rolloverN P.time_units ((period : Int) + r))))
              = some oin := hoin
          obtain ⟨neighbor, hn, onb, honb, hvnb⟩ := optFlatMap_mem_inv hoin' hvin
          cases hv2 : alookup s
              (neighbor, rolloverN P.time_units ((period : Int) + r)) with
          | none => rw [hv2] at honb; simp [checkOcc3] at honb
          | some v2 =>
            rw [hv2] at honb
            cases v2 with
            | none =>
              simp only [checkOcc3] at honb
              cases honb
              simp at hvnb
            | some c2 =>
              simp only [checkOcc3] at honb
              by_cases hc2 : c2 ∈ familyMembers P d.family
              · rw [if_pos hc2] at honb
                cases honb
                simp only [List.mem_singleton] at hvnb
                exact ⟨c, d, c2, r, neighbor, rfl, hce, hd, hr2, hn, hv2,
                  hc2, hvnb⟩
              · rw [if_neg hc2] at honb
                cases honb
                simp at hvnb

theorem validate2_mem_intro {P : Problem} {s : Sample} {e2 : List Violation}
    (h : validate2 P s = some e2)
    {period plot : Nat} {c : String} {d : CropDef} {rc : String} {r : Nat}
    (hp : period ∈ periodsList P) (hq : plot ∈ plotKeys P)
    (h1 : alookup s (plot, period) = some (some c)) (hce : c ≠ "")
    (hd : alookup P.crops c = some d) (hr1 : 1 ≤ r) (hr2 : r ≤ d.grow_time)
    (h2 : alookup s (plot, rolloverN P.time_units ((period : Int) + r)) =
      some (some rc))
    (hfam : rc ∈ familyMembers P d.family) (hrc : rc ≠ c) :
    Violation.c2 (plot, period) c
      (plot, rolloverN P.time_units ((period : Int) + r)) rc ∈ e2 := by
  obtain ⟨operiod, hoper⟩ := optFlatMap_sub h period hp
  obtain ⟨obody, hobody⟩ := optFlatMap_sub hoper plot hq
  have hbody := hobody
  rw [validate2Body, h1] at hbody
  simp only [checkPlanted2] at hbody
  rw [if_neg hce, hd] at hbody
  simp only [withCrop2] at hbody
  have hrmem : r ∈ rangeFrom 1 (d.grow_time + 1) :=
    mem_rangeFrom.mpr ⟨hr1, by omega⟩
  have hinner : checkOcc2 P (plot, period) c d.family
      (plot, rolloverN P.time_units ((period : Int) + r))
      (alookup s (plot, rolloverN P.time_units ((period : Int) + r))) =
      some [Violation.c2 (plot, period) c
        (plot, rolloverN P.time_units ((period : Int) + r)) rc] := by
    rw [h2]
    simp only [checkOcc2]
    rw [if_pos (List.mem_filter.mpr ⟨hfam, by simp [hrc]⟩)]
  have hin2 : Violation.c2 (plot, period) c
      (plot, rolloverN P.time_units ((period : Int) + r)) rc ∈ obody :=
    optFlatMap_mem_intro hbody hrmem hinner (List.mem_singleton_self _)
  have hinper : Violation.c2 (plot, period) c
      (plot, rolloverN P.time_units ((period : Int) + r)) rc ∈ operiod :=
    optFlatMap_mem_intro hoper hq hobody hin2
  exact optFlatMap_mem_intro h hp hoper hinper

/-- C8: `validate` reports a constraint-2 violation for a planted crop
exactly when, at some cyclic offset `r` in `1..grow_time` ahead on the same
plot, a *different* crop of the same family occupies; in particular a crop
immediately followed by itself (self-repetition) never produces a
constraint-2 violation. -/
theorem c8_validator_constraint2 (P : Problem) (s : Sample)
    (errs : List Violation) (_hval : ValidProblem P)
    (h : validate P s = some errs) (plot period : Nat) (c1 c2 : String)
    (rvar : VarL) :
    (Violation.c2 (plot, period) c1 rvar c2 ∈ errs ↔
      ∃ d r, period ∈ periodsList P ∧ plot ∈ plotKeys P ∧
        alookup s (plot, period) = some (some c1) ∧ c1 ≠ "" ∧
        alookup P.crops c1 = some d ∧ 1 ≤ r ∧ r ≤ d.grow_time ∧
        rvar = (plot, rolloverN P.time_units ((period : Int) + r)) ∧
        alookup s rvar = some (some c2) ∧
        c2 ∈ familyMembers P d.family ∧ c2 ≠ c1) ∧
    (∀ (v1 v2 : VarL) (c : String), Violation.c2 v1 c v2 c ∉ errs) := by
  obtain ⟨e1, e2, e3, h1, h2, h3, rfl⟩ := validate_decomp h
  constructor
  · constructor
    · intro hmem
      rcases List.mem_append.mp hmem with hmem' | hmem3
      · rcases List.mem_append.mp hmem' with hmem1 | hmem2
        · obtain ⟨p', -, q', -, cc, g, rc, r, -, -, -, -, -, -, -, heq⟩ :=
            validate1_mem h1 hmem1
          exact absurd heq (by simp)
        · obtain ⟨p', hp', q', hq', c, d, rc, r, hl1, hce, hd, hr1, hr2, hl2,
            hfam, hrcne, heq⟩ := validate2_mem h2 hmem2
          simp only [Violation.c2.injEq, Prod.mk.injEq] at heq
          obtain ⟨⟨hpq, hpp⟩, hc1, hrv, hc2⟩ := heq
          subst hpq; subst hpp; subst hc1; subst hc2
          exact ⟨d, r, hp', hq', hl1, hce, hd, hr1, hr2, by rw [hrv],
            by rw [hrv]; exact hl2, hfam, hrcne⟩
      · obtain ⟨p', -, e, -, cc, d, cc2, r, nb, -, -, -, -, -, -, -, heq⟩ :=
          validate3_mem h3 hmem3
        exact absurd heq (by simp)
    · rintro ⟨d, r, hp, hq, h1', hce, hd, hr1, hr2, rfl, h2', hfam, hc2ne⟩
      exact List.mem_append.mpr (Or.inl (List.mem_append.mpr (Or.inr
        (validate2_mem_intro h2 hp hq h1' hce hd hr1 hr2 h2' hfam hc2ne))))
  · intro v1 v2 c hmem
    rcases List.mem_append.mp hmem with hmem' | hmem3
    · rcases List.mem_append.mp hmem' with hmem1 | hmem2
      · obtain ⟨p', -, q', -, cc, g, rc, r, -, -, -, -, -, -, -, heq⟩ :=
          validate1_mem h1 hmem1
        exact absurd heq (by simp)
      · obtain ⟨p', hp', q', hq', cc, d, rc, r, -, -, -, -, -, -, -, hrcne,
          heq⟩ := validate2_mem h2 hmem2
        simp only [Violation.c2.injEq, Prod.mk.injEq] at heq
        obtain ⟨-, hc1, -, hc2⟩ := heq
        exact hrcne (hc2 ▸ hc1 ▸ rfl)
    · obtain ⟨p', -, e, -, cc, d, cc2, r, nb, -, -, -, -, -, -, -, heq⟩ :=
        validate3_mem h3 hmem3
      exact absurd heq (by simp)

/-- Two crops of one family on a single plot: planting `x` then `z` in
consecutive periods violates constraint 2 twice (cyclically). -/
def exFam : Problem :=
  ⟨2, [(1, [])], [("x", ⟨"y", (1, 2), 1⟩), ("z", ⟨"y", (1, 2), 1⟩)]⟩

def exFamSample : Sample := [((1, 1), some "x"), ((1, 2), some "z")]

theorem c8_witness :
    Violation.c2 ((1 : Nat), (1 : Nat)) "x" ((1 : Nat), (2 : Nat)) "z" ∈
      [Violation.c2 (1, 1) "x" (1, 2) "z",
        Violation.c2 (1, 2) "z" (1, 1) "x"] := by
  have h := c8_validator_constraint2 exFam exFamSample
    [Violation.c2 (1, 1) "x" (1, 2) "z", Violation.c2 (1, 2) "z" (1, 1) "x"]
    (by decide) (by decide) 1 1 "x" "z" (1, 2)
  exact h.1.mpr ⟨⟨"y", (1, 2), 1⟩, 1, by decide, by decide, by decide,
    by decide, by decide, by decide, by decide, by decide, by decide,
    by decide, by decide⟩

/-! ### From reported violations to active penalty terms -/

theorem coverage_crop {P : Problem} {s : Sample} (hcov : CoversDomain P s)
    {plot period : Nat} {c : String} (hq : plot ∈ plotKeys P)
    (hp : period ∈ periodsList P)
    (hl : alookup s (plot, period) = some (some c)) :
    c ∈ periodCrops P period := by
  have h0 := hcov plot hq period hp
  rw [hl] at h0
  exact h0

theorem mem_familyMembers_entry {P : Problem} {f c : String}
    (h : c ∈ familyMembers P f) :
    ∃ d, (c, d) ∈ P.crops ∧ d.family = f := by
  obtain ⟨e, he, rfl⟩ := List.mem_map.mp h
  exact ⟨e.2, by simpa using (List.mem_filter.mp he).1,
    by simpa using (List.mem_filter.mp he).2⟩

theorem pass1_active_of_mem {P : Problem} {s : Sample} {e1 : List Violation}
    (hval : ValidProblem P) (hcov : CoversDomain P s)
    (h1 : validate1 P s = some e1) {v : Violation} (hv : v ∈ e1) :
    ∃ t ∈ pass1Terms P, termActive s t := by
  have hT : 1 ≤ P.time_units := hval.1
  obtain ⟨p1, hp1, plot, hq, c, g, rc, r, hl1, -, hg, hr1, hr2, hl2, -, -⟩ :=
    validate1_mem h1 hv
  obtain ⟨hp1lo, hp1hi⟩ := mem_periodsList.mp hp1
  have hcmem : (c, r) ∈ cropRList P := by
    rw [growTimeOf] at hg
    cases hd : alookup P.crops c with
    | none => rw [hd] at hg; simp at hg
    | some d =>
      rw [hd] at hg
      simp at hg
      subst hg
      exact mem_cropRList.mpr ⟨d, mem_of_alookup_eq_some hd, hr2⟩
  set p : Nat := rolloverN P.time_units ((p1 : Int) + r) with hpdef
  have hpmem : p ∈ periodsList P := rolloverN_mem_periodsList hT _
  obtain ⟨hplo, hphi⟩ := mem_periodsList.mp hpmem
  have hrcdom : rc ∈ periodCrops P p := coverage_crop hcov hq hpmem hl2
  have hrcmem : (rc, 0) ∈ cropRList P := by
    obtain ⟨dc, hdc⟩ := alookup_isSome_of_mem (periodCrops_subset_cropKeys hrcdom)
    have hg1 : 1 ≤ dc.grow_time := by
      simpa using (hval.2.2.2.2.1 (rc, dc) (mem_of_alookup_eq_some hdc)).2.2.2.2
    exact mem_cropRList.mpr ⟨dc, mem_of_alookup_eq_some hdc, by omega⟩
  have hcdom : c ∈ periodCrops P p1 := coverage_crop hcov hq hp1 hl1
  have hs1 : rolloverN P.time_units ((p : Int) - (r : Nat)) = p1 :=
    rolloverN_sub_cancel P.time_units hT p1 r hp1lo hp1hi
  have hs2 : rolloverN P.time_units ((p : Int) - ((0 : Nat) : Int)) = p := by
    have he : (p : Int) - ((0 : Nat) : Int) = ((p : Nat) : Int) := by simp
    rw [he]
    exact rolloverN_self P.time_units hT p hplo hphi
  have hneq : (c, r) ≠ (rc, 0) := by
    intro hc
    rw [Prod.mk.injEq] at hc
    obtain ⟨-, h0⟩ := hc
    omega
  rcases mem_pairCombos_of_mem hcmem hrcmem hneq with hpair | hpair
  · refine ⟨⟨(plot, rolloverN P.time_units ((p : Int) - (r : Nat))), c,
      (plot, rolloverN P.time_units ((p : Int) - ((0 : Nat) : Int))), rc⟩,
      ?_, ?_, ?_⟩
    · refine List.mem_flatMap.mpr ⟨p, hpmem, ?_⟩
      refine List.mem_flatMap.mpr ⟨plot, hq, ?_⟩
      exact crop_r_combinations_intro hpair (by omega)
        (by rw [hs1]; exact hcdom) (by rw [hs2]; exact hrcdom)
    · show alookup s (plot, rolloverN P.time_units ((p : Int) - (r : Nat))) = _
      rw [hs1]
      exact hl1
    · show alookup s (plot, rolloverN P.time_units ((p : Int) - ((0:Nat) : Int))) = _
      rw [hs2]
      exact hl2
  · refine ⟨⟨(plot, rolloverN P.time_units ((p : Int) - ((0 : Nat) : Int))), rc,
      (plot, rolloverN P.time_units ((p : Int) - (r : Nat))), c⟩, ?_, ?_, ?_⟩
    · refine List.mem_flatMap.mpr ⟨p, hpmem, ?_⟩
      refine List.mem_flatMap.mpr ⟨plot, hq, ?_⟩
      exact crop_r_combinations_intro hpair (by omega)
        (by rw [hs2]; exact hrcdom) (by rw [hs1]; exact hcdom)
    · show alookup s (plot, rolloverN P.time_units ((p : Int) - ((0:Nat) : Int))) = _
      rw [hs2]
      exact hl2
    · show alookup s (plot, rolloverN P.time_units ((p : Int) - (r : Nat))) = _
      rw [hs1]
      exact hl1

theorem pass2_active_of_mem {P : Problem} {s : Sample} {e2 : List Violation}
    (hval : ValidProblem P) (hcov : CoversDomain P s)
    (h2 : validate2 P s = some e2) {v : Violation} (hv : v ∈ e2) :
    ∃ t ∈ pass2Terms P, termActive s t := by
  have hT : 1 ≤ P.time_units := hval.1
  obtain ⟨p1, hp1, plot, hq, c, d, rc, r, hl1, -, hd, hr1, hr2, hl2, hfam,
    hrcne, -⟩ := validate2_mem h2 hv
  obtain ⟨hp1lo, hp1hi⟩ := mem_periodsList.mp hp1
  have hcmem : (c, r) ∈ familyCropR P d.family :=
    mem_familyCropR.mpr ⟨d, mem_of_alookup_eq_some hd, rfl, hr2⟩
  obtain ⟨drc, hdrc, hdrcf⟩ := mem_familyMembers_entry hfam
  have hrcmem : (rc, 0) ∈ familyCropR P d.family :=
    mem_familyCropR.mpr ⟨drc, hdrc, hdrcf, by omega⟩
  set p : Nat := rolloverN P.time_units ((p1 : Int) + r) with hpdef
  have hpmem : p ∈ periodsList P := rolloverN_mem_periodsList hT _
  obtain ⟨hplo, hphi⟩ := mem_periodsList.mp hpmem
  have hrcdom : rc ∈ periodCrops P p := coverage_crop hcov hq hpmem hl2
  have hcdom : c ∈ periodCrops P p1 := coverage_crop hcov hq hp1 hl1
  have hs1 : rolloverN P.time_units ((p : Int) - (r : Nat)) = p1 :=
    rolloverN_sub_cancel P.time_units hT p1 r hp1lo hp1hi
  have hs2 : rolloverN P.time_units ((p : Int) - ((0 : Nat) : Int)) = p := by
    have he : (p : Int) - ((0 : Nat) : Int) = ((p : Nat) : Int) := by simp
    rw [he]
    exact rolloverN_self P.time_units hT p hplo hphi
  have hfamlist : d.family ∈ familiesList P :=
    mem_familiesList (mem_of_alookup_eq_some hd)
  have hneq : (c, r) ≠ (rc, 0) := by
    intro hc
    rw [Prod.mk.injEq] at hc
    obtain ⟨-, h0⟩ := hc
    omega
  rcases mem_pairCombos_of_mem hcmem hrcmem hneq with hpair | hpair
  · refine ⟨⟨(plot, rolloverN P.time_units ((p : Int) - (r : Nat))), c,
      (plot, rolloverN P.time_units ((p : Int) - ((0 : Nat) : Int))), rc⟩,
      ?_, ?_, ?_⟩
    · refine List.mem_flatMap.mpr ⟨p, hpmem, ?_⟩
      refine List.mem_flatMap.mpr ⟨plot, hq, ?_⟩
      refine List.mem_flatMap.mpr ⟨d.family, hfamlist, ?_⟩
      exact crop_r_combinations_intro hpair (by omega)
        (by rw [hs1]; exact hcdom) (by rw [hs2]; exact hrcdom)
    · show alookup s (plot, rolloverN P.time_units ((p : Int) - (r : Nat))) = _
      rw [hs1]
      exact hl1
    · show alookup s (plot, rolloverN P.time_units ((p : Int) - ((0:Nat) : Int))) = _
      rw [hs2]
      exact hl2
  · refine ⟨⟨(plot, rolloverN P.time_units ((p : Int) - ((0 : Nat) : Int))), rc,
      (plot, rolloverN P.time_units ((p : Int) - (r : Nat))), c⟩, ?_, ?_, ?_⟩
    · refine List.mem_flatMap.mpr ⟨p, hpmem, ?_⟩
      refine List.mem_flatMap.mpr ⟨plot, hq, ?_⟩
      refine List.mem_flatMap.mpr ⟨d.family, hfamlist, ?_⟩
      exact crop_r_combinations_intro hpair (by omega)
        (by rw [hs2]; exact hrcdom) (by rw [hs1]; exact hcdom)
    · show alookup s (plot, rolloverN P.time_units ((p : Int) - ((0:Nat) : Int))) = _
      rw [hs2]
      exact hl2
    · show alookup s (plot, rolloverN P.time_units ((p : Int) - (r : Nat))) = _
      rw [hs1]
      exact hl1

theorem pass3_active_of_mem {P : Problem} {s : Sample} {e3 : List Violation}
    (hval : ValidProblem P) (hcov : CoversDomain P s)
    (h3 : validate3 P s = some e3) {v : Violation} (hv : v ∈ e3) :
    ∃ t ∈ pass3Terms P, termActive s t := by
  have hT : 1 ≤ P.time_units := hval.1
  obtain ⟨p1, hp1, e, he, c, d, c2, r, neighbor, hl1, -, hd, hr2, hn, hl2,
    hc2fam, -⟩ := validate3_mem h3 hv
  obtain ⟨hp1lo, hp1hi⟩ := mem_periodsList.mp hp1
  have hq : e.1 ∈ plotKeys P := List.mem_map_of_mem Prod.fst he
  have hnbq : neighbor ∈ plotKeys P := (hval.2.2.1 e he neighbor hn).1
  have hnbne : neighbor ≠ e.1 := (hval.2.2.1 e he neighbor hn).2
  have huv : (e.1, neighbor) ∈ neighborPairs P :=
    mem_neighborPairs.mpr ⟨e, he, rfl, hn⟩
  have hfamlist : d.family ∈ familiesList P :=
    mem_familiesList (mem_of_alookup_eq_some hd)
  have ha1 : (e.1, c, r) ∈ pass3Input P e.1 neighbor d.family :=
    mem_pass3Input.mpr ⟨d, mem_of_alookup_eq_some hd, rfl, hr2, Or.inl rfl⟩
  obtain ⟨d2, hd2mem, hd2f⟩ := mem_familyMembers_entry hc2fam
  have hg2 : 1 ≤ d2.grow_time := by
    simpa using (hval.2.2.2.2.1 (c2, d2) hd2mem).2.2.2.2
  have ha2 : (neighbor, c2, 0) ∈ pass3Input P e.1 neighbor d.family :=
    mem_pass3Input.mpr ⟨d2, hd2mem, hd2f, by omega, Or.inr rfl⟩
  set p : Nat := rolloverN P.time_units ((p1 : Int) + r) with hpdef
  have hpmem : p ∈ periodsList P := rolloverN_mem_periodsList hT _
  obtain ⟨hplo, hphi⟩ := mem_periodsList.mp hpmem
  have hcdom : c ∈ periodCrops P p1 := coverage_crop hcov hq hp1 hl1
  have hc2dom : c2 ∈ periodCrops P p := coverage_crop hcov hnbq hpmem hl2
  have hs1 : rolloverN P.time_units ((p : Int) - (r : Nat)) = p1 :=
    rolloverN_sub_cancel P.time_units hT p1 r hp1lo hp1hi
  have hs2 : rolloverN P.time_units ((p : Int) - ((0 : Nat) : Int)) = p := by
    have he0 : (p : Int) - ((0 : Nat) : Int) = ((p : Nat) : Int) := by simp
    rw [he0]
    exact rolloverN_self P.time_units hT p hplo hphi
  have hneq : ((e.1, c, r) : Nat × String × Nat) ≠ (neighbor, c2, 0) := by
    intro hc
    rw [Prod.mk.injEq] at hc
    exact hnbne hc.1.symm
  rcases mem_pairCombos_of_mem ha1 ha2 hneq with hpair | hpair
  · refine ⟨⟨(e.1, rolloverN P.time_units ((p : Int) - (r : Nat))), c,
      (neighbor, rolloverN P.time_units ((p : Int) - ((0 : Nat) : Int))), c2⟩,
      ?_, ?_, ?_⟩
    · refine List.mem_flatMap.mpr ⟨p, hpmem, ?_⟩
      refine List.mem_flatMap.mpr ⟨(e.1, neighbor), huv, ?_⟩
      refine List.mem_flatMap.mpr ⟨d.family, hfamlist, ?_⟩
      exact plot_crop_r_combinations_intro hpair
        (fun hc => hnbne hc.1.symm)
        (by rw [hs1]; exact hcdom) (by rw [hs2]; exact hc2dom)
    · show alookup s (e.1, rolloverN P.time_units ((p : Int) - (r : Nat))) = _
      rw [hs1]
      exact hl1
    · show alookup s (neighbor,
        rolloverN P.time_units ((p : Int) - ((0 : Nat) : Int))) = _
      rw [hs2]
      exact hl2
  · refine ⟨⟨(neighbor, rolloverN P.time_units ((p : Int) - ((0 : Nat) : Int))),
      c2, (e.1, rolloverN P.time_units ((p : Int) - (r : Nat))), c⟩,
      ?_, ?_, ?_⟩
    · refine List.mem_flatMap.mpr ⟨p, hpmem, ?_⟩
      refine List.mem_flatMap.mpr ⟨(e.1, neighbor), huv, ?_⟩
      refine List.mem_flatMap.mpr ⟨d.family, hfamlist, ?_⟩
      exact plot_crop_r_combinations_intro hpair
        (fun hc => hnbne hc.1)
        (by rw [hs2]; exact hc2dom) (by rw [hs1]; exact hcdom)
    · show alookup s (neighbor,
        rolloverN P.time_units ((p : Int) - ((0 : Nat) : Int))) = _
      rw [hs2]
      exact hl2
    · show alookup s (e.1, rolloverN P.time_units ((p : Int) - (r : Nat))) = _
      rw [hs1]
      exact hl1

/-- C1 counterexample: on the validated instance `exProblem`
(`time_units = 2`, one plot, one crop `x` of `grow_time` 1 plantable in
both periods) and the in-domain full assignment planting `x` in both
periods, a quadratic penalty term emitted by constraint pass 2 is active,
yet `validate` returns the empty violation list — refuting the claimed
equivalence (active penalty term iff non-empty violation list). -/
theorem c1_counterexample :
    ValidProblem exProblem ∧ CoversDomain exProblem exSelfSample ∧
      (∃ t ∈ pass2Terms exProblem, termActive exSelfSample t) ∧
      validate exProblem exSelfSample = some [] := by
  refine ⟨by decide, by decide, ?_, by decide⟩
  exact ⟨⟨(1, 1), "x", (1, 2), "x"⟩, by decide, by decide⟩

/-- C1 (amended): one direction of the claimed agreement holds — every
violation reported by `validate` (naming constraint `k`) corresponds to an
active quadratic penalty term emitted by constraint pass `k` of
`build_dqm`; consequently a non-empty violation list implies some active
emitted term, and an assignment activating no emitted term validates with
the empty list.  (The converse fails: a pass-2 term between two
occurrences of the *same* crop can be active on a feasible assignment; see
the counterexample.) -/
theorem c1_violations_have_active_terms (P : Problem) (s : Sample)
    (errs : List Violation) (hval : ValidProblem P) (hcov : CoversDomain P s)
    (h : validate P s = some errs) :
    (∀ v1 c1 v2 c2 g, Violation.c1 v1 c1 v2 c2 g ∈ errs →
      ∃ t ∈ pass1Terms P, termActive s t) ∧
    (∀ v1 c1 v2 c2, Violation.c2 v1 c1 v2 c2 ∈ errs →
      ∃ t ∈ pass2Terms P, termActive s t) ∧
    (∀ v1 c1 v2 c2, Violation.c3 v1 c1 v2 c2 ∈ errs →
      ∃ t ∈ pass3Terms P, termActive s t) ∧
    (errs ≠ [] → ∃ t ∈ allTerms P, termActive s t) ∧
    ((∀ t ∈ allTerms P, ¬ termActive s t) → errs = []) := by
  obtain ⟨e1, e2, e3, h1, h2, h3, rfl⟩ := validate_decomp h
  have act1 : ∀ v ∈ e1, ∃ t ∈ pass1Terms P, termActive s t :=
    fun v hv => pass1_active_of_mem hval hcov h1 hv
  have act2 : ∀ v ∈ e2, ∃ t ∈ pass2Terms P, termActive s t :=
    fun v hv => pass2_active_of_mem hval hcov h2 hv
  have act3 : ∀ v ∈ e3, ∃ t ∈ pass3Terms P, termActive s t :=
    fun v hv => pass3_active_of_mem hval hcov h3 hv
  have hdisp : ∀ v ∈ e1 ++ e2 ++ e3,
      ∃ t ∈ allTerms P, termActive s t := by
    intro v hv
    rcases List.mem_append.mp hv with hv' | hv3
    · rcases List.mem_append.mp hv' with hv1 | hv2
      · obtain ⟨t, ht, hact⟩ := act1 v hv1
        exact ⟨t, List.mem_append.mpr (Or.inl (List.mem_append.mpr (Or.inl ht))),
          hact⟩
      · obtain ⟨t, ht, hact⟩ := act2 v hv2
        exact ⟨t, List.mem_append.mpr (Or.inl (List.mem_append.mpr (Or.inr ht))),
          hact⟩
    · obtain ⟨t, ht, hact⟩ := act3 v hv3
      exact ⟨t, List.mem_append.mpr (Or.inr ht), hact⟩
  refine ⟨?_, ?_, ?_, ?_, ?_⟩
  · intro v1 c1 v2 c2 g hmem
    rcases List.mem_append.mp hmem with hv' | hv3
    · rcases List.mem_append.mp hv' with hv1 | hv2
      · exact act1 _ hv1
      · obtain ⟨_, _, _, _, _, _, _, _, _, _, _, _, _, _, _, _, heq⟩ :=
          validate2_mem h2 hv2
        exact absurd heq (by simp)
    · obtain ⟨_, _, _, _, _, _, _, _, _, _, _, _, _, _, _, _, heq⟩ :=
        validate3_mem h3 hv3
      exact absurd heq (by simp)
  · intro v1 c1 v2 c2 hmem
    rcases List.mem_append.mp hmem with hv' | hv3
    · rcases List.mem_append.mp hv' with hv1 | hv2
      · obtain ⟨_, _, _, _, _, _, _, _, _, _, _, _, _, _, _, heq⟩ :=
          validate1_mem h1 hv1
        exact absurd heq (by simp)
      · exact act2 _ hv2
    · obtain ⟨_, _, _, _, _, _, _, _, _, _, _, _, _, _, _, _, heq⟩ :=
        validate3_mem h3 hv3
      exact absurd heq (by simp)
  · intro v1 c1 v2 c2 hmem
    rcases List.mem_append.mp hmem with hv' | hv3
    · rcases List.mem_append.mp hv' with hv1 | hv2
      · obtain ⟨_, _, _, _, _, _, _, _, _, _, _, _, _, _, _, heq⟩ :=
          validate1_mem h1 hv1
        exact absurd heq (by simp)
      · obtain ⟨_, _, _, _, _, _, _, _, _, _, _, _, _, _, _, _, heq⟩ :=
          validate2_mem h2 hv2
        exact absurd heq (by simp)
    · exact act3 _ hv3
  · intro hne
    obtain ⟨v, hv⟩ := List.exists_mem_of_ne_nil _ hne
    exact hdisp v hv
  · intro hnone
    by_contra hne
    obtain ⟨v, hv⟩ := List.exists_mem_of_ne_nil _ hne
    obtain ⟨t, ht, hact⟩ := hdisp v hv
    exact hnone t ht hact

theorem c1_witness : ∃ t ∈ pass2Terms exFam, termActive exFamSample t := by
  have h := c1_violations_have_active_terms exFam exFamSample
    [Violation.c2 (1, 1) "x" (1, 2) "z", Violation.c2 (1, 2) "z" (1, 1) "x"]
    (by decide) (by decide) (by decide)
  exact h.2.1 (1, 1) "x" (1, 2) "z" (by decide)

end CropRot
